import Mathlib

set_option linter.unusedVariables false

/-!
Verification development for the yomitan sqlite translator.

The development shallowly embeds the two source files:
src/process.py, which imports sharded zip dictionaries into the sqlite
table named translations, and src/reverse.py, which exports that table
back into a sharded zip archive.  Python strings are embedded as lists of
characters, JSON documents as an inductive type, the sqlite table as a
list of rows, and the zip archive as a list of named members.  The
provenance-preserving variant described by the design document has no
source under src and is modelled from the specification text; every such
definition is marked in its doc comment.
-/

/-- Python strings are modelled as lists of characters. -/
abbrev Str := List Char

/-- Python str.join over the two-character delimiter semicolon-space, as in
the expression joining the translation list at src/process.py line 68. -/
def pyJoin : List Str → Str
  | [] => []
  | [p] => p
  | p :: ps => p ++ ';' :: ' ' :: pyJoin ps

/-- Test whether a string contains the delimiter semicolon-space as a
substring (the Python expression testing membership of the separator). -/
def hasSep : Str → Bool
  | [] => false
  | c1 :: rest =>
      match rest with
      | [] => false
      | c2 :: _ => (c1 == ';' && c2 == ' ') || hasSep rest

/-- Scanner for Python str.split over the delimiter semicolon-space: cut at
every leftmost non-overlapping occurrence of the delimiter.  The boolean
state records that the previously read character was a semicolon that may
begin a delimiter occurrence but has not yet been written to the current
field accumulator. -/
def splitGo : Bool → Str → Str → List Str
  | false, [], acc => [acc]
  | true, [], acc => [acc ++ [';']]
  | false, c :: rest, acc =>
      if c == ';' then splitGo true rest acc
      else splitGo false rest (acc ++ [c])
  | true, c :: rest, acc =>
      if c == ' ' then acc :: splitGo false rest []
      else if c == ';' then splitGo true rest (acc ++ [';'])
      else splitGo false rest (acc ++ [';', c])

/-- Python str.split over the delimiter semicolon-space, the operation at
src/reverse.py line 89.  On the empty string it yields a one-element list
holding the empty string, exactly as Python does. -/
def pySplit (s : Str) : List Str := splitGo false s []

theorem hasSep_tail {c : Char} {s : Str} (h : hasSep (c :: s) = false) :
    hasSep s = false := by
  cases s with
  | nil => rfl
  | cons c2 rest =>
    rw [hasSep] at h
    exact (Bool.or_eq_false_iff.mp h).2

theorem splitGo_no_sep :
    ∀ s : Str,
      (∀ acc, hasSep s = false → splitGo false s acc = [acc ++ s]) ∧
      (∀ acc, hasSep (';' :: s) = false → splitGo true s acc = [acc ++ ';' :: s]) := by
  intro s
  induction s with
  | nil =>
    constructor
    · intro acc h; simp [splitGo]
    · intro acc h; simp [splitGo]
  | cons c rest ih =>
    constructor
    · intro acc h
      by_cases hc : c = ';'
      · subst hc
        rw [splitGo, if_pos (by simp)]
        exact ih.2 acc h
      · rw [splitGo, if_neg (by simp [hc])]
        rw [(ih.1 (acc ++ [c])) (hasSep_tail h)]
        simp
    · intro acc h
      rw [hasSep] at h
      have h1 := Bool.or_eq_false_iff.mp h
      have hcsp : c ≠ ' ' := by
        intro hc
        subst hc
        simp at h1
      have htail : hasSep (c :: rest) = false := h1.2
      by_cases hc : c = ';'
      · subst hc
        rw [splitGo, if_neg (by simp), if_pos (by simp)]
        rw [ih.2 (acc ++ [';']) htail]
        simp
      · rw [splitGo, if_neg (by simp [hcsp]), if_neg (by simp [hc])]
        rw [ih.1 (acc ++ [';', c]) (hasSep_tail htail)]
        simp

theorem splitGo_sep_append :
    ∀ p t acc : Str, hasSep p = false →
      splitGo false (p ++ ';' :: ' ' :: t) acc = (acc ++ p) :: splitGo false t [] := by
  have main : ∀ p : Str,
      (∀ t acc, hasSep p = false →
        splitGo false (p ++ ';' :: ' ' :: t) acc = (acc ++ p) :: splitGo false t []) ∧
      (∀ t acc, hasSep (';' :: p) = false →
        splitGo true (p ++ ';' :: ' ' :: t) acc = (acc ++ ';' :: p) :: splitGo false t []) := by
    intro p
    induction p with
    | nil =>
      constructor
      · intro t acc h
        simp only [List.nil_append, List.append_nil]
        rw [splitGo, if_pos (by simp)]
        rw [splitGo, if_pos (by simp)]
      · intro t acc h
        simp only [List.nil_append]
        rw [splitGo, if_neg (by simp), if_pos (by simp)]
        rw [splitGo, if_pos (by simp)]
    | cons c rest ih =>
      constructor
      · intro t acc h
        by_cases hc : c = ';'
        · subst hc
          simp only [List.cons_append]
          rw [splitGo, if_pos (by simp)]
          rw [ih.2 t acc h]
        · simp only [List.cons_append]
          rw [splitGo, if_neg (by simp [hc])]
          rw [ih.1 t (acc ++ [c]) (hasSep_tail h)]
          simp
      · intro t acc h
        rw [hasSep] at h
        have h1 := Bool.or_eq_false_iff.mp h
        have hcsp : c ≠ ' ' := by
          intro hc
          subst hc
          simp at h1
        have htail : hasSep (c :: rest) = false := h1.2
        by_cases hc : c = ';'
        · subst hc
          simp only [List.cons_append]
          rw [splitGo, if_neg (by simp), if_pos (by simp)]
          rw [ih.2 t (acc ++ [';']) htail]
          simp
        · simp only [List.cons_append]
          rw [splitGo, if_neg (by simp [hcsp]), if_neg (by simp [hc])]
          rw [ih.1 t (acc ++ [';', c]) (hasSep_tail htail)]
          simp
  intro p t acc h
  exact (main p).1 t acc h

theorem pySplit_pyJoin :
    ∀ parts : List Str, parts ≠ [] → (∀ p ∈ parts, hasSep p = false) →
      pySplit (pyJoin parts) = parts := by
  intro parts
  induction parts with
  | nil => intro h; exact absurd rfl h
  | cons p ps ih =>
    intro _ hall
    cases ps with
    | nil =>
      show splitGo false (pyJoin [p]) [] = [p]
      rw [pyJoin, (splitGo_no_sep p).1 [] (hall p (by simp))]
      simp
    | cons q qs =>
      show splitGo false (pyJoin (p :: q :: qs)) [] = p :: q :: qs
      rw [show pyJoin (p :: q :: qs) = p ++ ';' :: ' ' :: pyJoin (q :: qs) from rfl,
        splitGo_sep_append p (pyJoin (q :: qs)) [] (hall p (by simp))]
      have := ih (List.cons_ne_nil q qs) (fun x hx => hall x (by simp [hx]))
      rw [List.nil_append]
      rw [show splitGo false (pyJoin (q :: qs)) [] = pySplit (pyJoin (q :: qs)) from rfl]
      rw [this]

/-- JSON values as decoded by json.load: objects keep their field order,
numbers are restricted to integers (the dictionary format uses integer
priorities only). -/
inductive Json where
  | null : Json
  | bool (b : Bool) : Json
  | num (n : Int) : Json
  | str (s : Str) : Json
  | arr (elems : List Json) : Json
  | obj (fields : List (Str × Json)) : Json

mutual

def Json.decEq : (a b : Json) → Decidable (a = b)
  | .null, .null => isTrue rfl
  | .bool a, .bool b =>
      if h : a = b then isTrue (h ▸ rfl)
      else isFalse (fun hh => h (Json.bool.inj hh))
  | .num a, .num b =>
      if h : a = b then isTrue (h ▸ rfl)
      else isFalse (fun hh => h (Json.num.inj hh))
  | .str a, .str b =>
      if h : a = b then isTrue (h ▸ rfl)
      else isFalse (fun hh => h (Json.str.inj hh))
  | .arr a, .arr b =>
      match Json.decEqList a b with
      | isTrue h => isTrue (h ▸ rfl)
      | isFalse h => isFalse (fun hh => h (Json.arr.inj hh))
  | .obj a, .obj b =>
      match Json.decEqFields a b with
      | isTrue h => isTrue (h ▸ rfl)
      | isFalse h => isFalse (fun hh => h (Json.obj.inj hh))
  | .null, .bool _ => isFalse (fun h => Json.noConfusion h)
  | .null, .num _ => isFalse (fun h => Json.noConfusion h)
  | .null, .str _ => isFalse (fun h => Json.noConfusion h)
  | .null, .arr _ => isFalse (fun h => Json.noConfusion h)
  | .null, .obj _ => isFalse (fun h => Json.noConfusion h)
  | .bool _, .null => isFalse (fun h => Json.noConfusion h)
  | .bool _, .num _ => isFalse (fun h => Json.noConfusion h)
  | .bool _, .str _ => isFalse (fun h => Json.noConfusion h)
  | .bool _, .arr _ => isFalse (fun h => Json.noConfusion h)
  | .bool _, .obj _ => isFalse (fun h => Json.noConfusion h)
  | .num _, .null => isFalse (fun h => Json.noConfusion h)
  | .num _, .bool _ => isFalse (fun h => Json.noConfusion h)
  | .num _, .str _ => isFalse (fun h => Json.noConfusion h)
  | .num _, .arr _ => isFalse (fun h => Json.noConfusion h)
  | .num _, .obj _ => isFalse (fun h => Json.noConfusion h)
  | .str _, .null => isFalse (fun h => Json.noConfusion h)
  | .str _, .bool _ => isFalse (fun h => Json.noConfusion h)
  | .str _, .num _ => isFalse (fun h => Json.noConfusion h)
  | .str _, .arr _ => isFalse (fun h => Json.noConfusion h)
  | .str _, .obj _ => isFalse (fun h => Json.noConfusion h)
  | .arr _, .null => isFalse (fun h => Json.noConfusion h)
  | .arr _, .bool _ => isFalse (fun h => Json.noConfusion h)
  | .arr _, .num _ => isFalse (fun h => Json.noConfusion h)
  | .arr _, .str _ => isFalse (fun h => Json.noConfusion h)
  | .arr _, .obj _ => isFalse (fun h => Json.noConfusion h)
  | .obj _, .null => isFalse (fun h => Json.noConfusion h)
  | .obj _, .bool _ => isFalse (fun h => Json.noConfusion h)
  | .obj _, .num _ => isFalse (fun h => Json.noConfusion h)
  | .obj _, .str _ => isFalse (fun h => Json.noConfusion h)
  | .obj _, .arr _ => isFalse (fun h => Json.noConfusion h)
termination_by structural a => a

def Json.decEqList : (a b : List Json) → Decidable (a = b)
  | [], [] => isTrue rfl
  | x :: xs, y :: ys =>
      match Json.decEq x y, Json.decEqList xs ys with
      | isTrue h1, isTrue h2 => isTrue (h1 ▸ h2 ▸ rfl)
      | isFalse h1, _ => isFalse (fun hh => h1 (List.cons.inj hh).1)
      | _, isFalse h2 => isFalse (fun hh => h2 (List.cons.inj hh).2)
  | [], _ :: _ => isFalse (fun h => List.noConfusion h)
  | _ :: _, [] => isFalse (fun h => List.noConfusion h)
termination_by structural a => a

def Json.decEqFields : (a b : List (Str × Json)) → Decidable (a = b)
  | [], [] => isTrue rfl
  | (n1, v1) :: xs, (n2, v2) :: ys =>
      if h1 : n1 = n2 then
        match Json.decEq v1 v2, Json.decEqFields xs ys with
        | isTrue h2, isTrue h3 => isTrue (h1 ▸ h2 ▸ h3 ▸ rfl)
        | isFalse h2, _ =>
            isFalse (fun hh => h2 (congrArg Prod.snd (List.cons.inj hh).1))
        | _, isFalse h3 => isFalse (fun hh => h3 (List.cons.inj hh).2)
      else isFalse (fun hh => h1 (congrArg Prod.fst (List.cons.inj hh).1))
  | [], _ :: _ => isFalse (fun h => List.noConfusion h)
  | _ :: _, [] => isFalse (fun h => List.noConfusion h)
termination_by structural a => a

end

instance : DecidableEq Json := Json.decEq

/-- Outcome classification for a raised Python exception, relative to the
except clauses of import_dictionary_from_zip (src/process.py lines 84-90):
caught errors are zipfile.BadZipFile, json.JSONDecodeError and
sqlite3.Error, which roll back the archive and let the run continue;
uncaught errors (ValueError, TypeError and the like) propagate out of the
function and abort the whole run. -/
inductive PyErr where
  | caught : PyErr
  | uncaught : PyErr
  deriving DecidableEq

/-- View of a JSON value as a Python string, used when joining a gloss
list: only actual strings qualify. -/
def asStr : Json → Option Str
  | .str s => some s
  | _ => none

/-- Value of a decimal digit character, none for other characters. -/
def digitVal (c : Char) : Option Nat :=
  if '0' ≤ c ∧ c ≤ '9' then some (c.toNat - '0'.toNat) else none

/-- Accumulating decimal parser over an all-digit tail. -/
def digitsGo (acc : Nat) : Str → Option Nat
  | [] => some acc
  | c :: rest =>
      match digitVal c with
      | some d => digitsGo (acc * 10 + d) rest
      | none => none

/-- Decimal value of a nonempty all-digit string. -/
def digitsVal : Str → Option Nat
  | [] => none
  | s => digitsGo 0 s

/-- Python int applied to a string: an optional sign followed by a
nonempty run of decimal digits (surrounding whitespace and underscore
grouping are not modelled; no input in this development uses them). -/
def pyIntStr : Str → Option Int
  | '-' :: rest => (digitsVal rest).map (fun n => -(n : Int))
  | '+' :: rest => (digitsVal rest).map (fun n => (n : Int))
  | s => (digitsVal s).map (fun n => (n : Int))

/-- Python int applied to a JSON value, as in int(priority) at
src/process.py line 68: integers pass through, booleans become 0 or 1,
numeric strings are parsed, anything else raises an uncaught error. -/
def pyInt : Json → Except PyErr Int
  | .num n => .ok n
  | .bool b => .ok (if b then 1 else 0)
  | .str s =>
      match pyIntStr s with
      | some n => .ok n
      | none => .error .uncaught
  | _ => .error .uncaught

/-- View of a list of JSON values as a list of Python strings, none if any
element is not a string. -/
def strListOf : List Json → Option (List Str)
  | [] => some []
  | j :: rest =>
      match asStr j, strListOf rest with
      | some s, some ss => some (s :: ss)
      | _, _ => none

/-- Python str.join of the delimiter over a JSON value, as in the join of
the translation field at src/process.py line 68: a list joins its string
elements (a non-string element raises an uncaught TypeError), a string
joins its characters, an object joins its keys, and other values raise an
uncaught TypeError. -/
def pyJoinVal : Json → Except PyErr Str
  | .arr l =>
      match strListOf l with
      | some ss => .ok (pyJoin ss)
      | none => .error .uncaught
  | .str s => .ok (pyJoin (s.map (fun c => [c])))
  | .obj fs => .ok (pyJoin (fs.map Prod.fst))
  | _ => .error .uncaught

/-- Decidable equality for Except outcomes, used to evaluate concrete
runs of the importer and the exporter. -/
def Except.decEqAux {e a : Type} [DecidableEq e] [DecidableEq a] :
    (x y : Except e a) → Decidable (x = y)
  | .ok x, .ok y =>
      if h : x = y then isTrue (h ▸ rfl)
      else isFalse (fun hh => h (Except.ok.inj hh))
  | .error x, .error y =>
      if h : x = y then isTrue (h ▸ rfl)
      else isFalse (fun hh => h (Except.error.inj hh))
  | .ok _, .error _ => isFalse (fun h => Except.noConfusion h)
  | .error _, .ok _ => isFalse (fun h => Except.noConfusion h)

instance {e a : Type} [DecidableEq e] [DecidableEq a] : DecidableEq (Except e a) :=
  Except.decEqAux

/-- Test that one character list is an initial segment of another, the
Python str.startswith used on archive member names. -/
def strStarts (pre s : Str) : Bool := s.take pre.length == pre

/-- One row of the translations table created at src/process.py lines
21-29: columns word, reading, kind, english, priority.  Column values are
the Python objects bound into the INSERT statement; the import always
binds a string for english and an integer for priority, but the table may
also be consumed by the exporter on an arbitrary database, so every column
is modelled as a dynamically typed value. -/
structure Row where
  word : Json
  reading : Json
  kind : Json
  english : Json
  priority : Json
  deriving DecidableEq

/-- Iteration of the for loop over the decoded shard content at
src/process.py line 61: lists iterate over elements, strings over their
characters, objects over their keys; other values raise an uncaught
TypeError. -/
def entryList : Json → Except PyErr (List Json)
  | .arr l => .ok l
  | .str s => .ok (s.map (fun c => .str [c]))
  | .obj fs => .ok (fs.map (fun f => .str f.1))
  | _ => .error .uncaught

/-- Decoding of one shard entry at src/process.py lines 63-69: slice the
first six items, destructure them as word, reading, kind, ignored, priority
and translation, then build the tuple to insert, joining the translation
and converting the priority.  Unpacking fewer than six items raises an
uncaught ValueError; slicing a non-sequence raises an uncaught TypeError.
Strings are sliceable, so a string entry of six or more characters
destructures into its first six characters. -/
def decodeEntry : Json → Except PyErr Row
  | .arr l =>
      match l with
      | w :: r :: k :: _ :: p :: t :: _ => do
          let eng ← pyJoinVal t
          let pr ← pyInt p
          .ok ⟨w, r, k, .str eng, .num pr⟩
      | _ => .error .uncaught
  | .str s =>
      match s with
      | c0 :: c1 :: c2 :: _ :: c4 :: c5 :: _ => do
          let eng ← pyJoinVal (.str [c5])
          let pr ← pyInt (.str [c4])
          .ok ⟨.str [c0], .str [c1], .str [c2], .str eng, .num pr⟩
      | _ => .error .uncaught
  | _ => .error .uncaught

/-- Test that a Python value can be bound as an sqlite parameter: None,
booleans, integers and strings bind; lists and objects raise
sqlite3.InterfaceError, which is an sqlite3.Error and hence caught. -/
def bindable : Json → Bool
  | .arr _ => false
  | .obj _ => false
  | _ => true

/-- Content of one archive member: either bytes that json.load accepts,
kept as the decoded document, or bytes that make json.load raise
json.JSONDecodeError. -/
inductive FileContent where
  | json (j : Json) : FileContent
  | raw (s : Str) : FileContent
  deriving DecidableEq

/-- Skip test at src/process.py lines 10-11 and 51: the member index.json
and any member whose name starts with tag_bank are never parsed as entry
shards. -/
def skipName (name : String) : Bool :=
  name == "index.json" || strStarts "tag_bank".data name.data

/-- Elementwise decoding of the entries of one shard, building the
to_insert list at src/process.py lines 60-69; the first entry that raises
aborts the build. -/
def decodeRows : List Json → Except PyErr (List Row)
  | [] => .ok []
  | e :: rest => do
      let row ← decodeEntry e
      let rows ← decodeRows rest
      .ok (row :: rows)

/-- Import of a single shard at src/process.py lines 55-77: decode the
member with json.load, build the list of tuples to insert, then bind them
with executemany.  Unparseable bytes raise the caught json.JSONDecodeError;
entries of the wrong shape raise uncaught errors during tuple building;
unbindable column values raise the caught sqlite3.InterfaceError at
executemany. -/
def importShard : FileContent → Except PyErr (List Row)
  | .raw _ => .error .caught
  | .json j => do
      let es ← entryList j
      let rows ← decodeRows es
      if rows.all (fun r => bindable r.word && bindable r.reading && bindable r.kind) then
        .ok rows
      else
        .error .caught

/-- Walk over the archive member list in zip_f.namelist() order at
src/process.py lines 49-77, skipping service members and accumulating the
rows of every entry shard; the first raised error aborts the walk. -/
def importMembers : List (String × FileContent) → Except PyErr (List Row)
  | [] => .ok []
  | (name, content) :: rest =>
      if skipName name then importMembers rest
      else do
        let rows ← importShard content
        let more ← importMembers rest
        .ok (rows ++ more)

/-- One source archive: either a file zipfile rejects (the caught
zipfile.BadZipFile) or a readable archive with its named members in
namelist() order. -/
inductive ZipSrc where
  | bad : ZipSrc
  | good (members : List (String × FileContent)) : ZipSrc

/-- Import of one archive, import_dictionary_from_zip at src/process.py
lines 36-90: on success the collected rows are committed; a caught error
(bad container, undecodable JSON, sqlite error) rolls the archive back so
it contributes nothing; an uncaught error propagates to the caller. -/
def importArchive : ZipSrc → Except PyErr (List Row)
  | .bad => .error .caught
  | .good ms => importMembers ms

/-- Observable outcome of a whole import run: the committed table rows in
order, the number of archives whose import failed with a caught error
(each prints one error line to stderr), and whether an uncaught error
aborted the run (main's except Exception at src/process.py lines 159-161,
which exits with status 1 before the index is created and before any
remaining archive is processed). -/
structure RunResult where
  rows : List Row
  failedArchives : Nat
  aborted : Bool
  deriving DecidableEq

/-- The loop over all source archives in main at src/process.py lines
145-157.  A successful archive commits its rows; a caught failure rolls
back only that archive and continues; an uncaught error stops the run,
with the current archive rolled back, earlier archives kept and later
archives never read. -/
def runImport : List ZipSrc → RunResult
  | [] => ⟨[], 0, false⟩
  | a :: rest =>
      match importArchive a with
      | .ok rows =>
          let r := runImport rest
          ⟨rows ++ r.rows, r.failedArchives, r.aborted⟩
      | .error .caught =>
          let r := runImport rest
          ⟨r.rows, r.failedArchives + 1, r.aborted⟩
      | .error .uncaught => ⟨[], 0, true⟩

/-- Number of entries per term bank file, the constant at src/reverse.py
line 16. -/
def CHUNK_SIZE : Nat := 10000

/-- Name of the n-th entry shard written at src/reverse.py lines 98 and
109. -/
def termBankName (n : Nat) : String := "term_bank_" ++ toString n ++ ".json"

/-- Metadata document produced by create_index_json at src/reverse.py
lines 24-34; the now argument stands for the strftime-rendered timestamp
taken inside that function. -/
def create_index_json (title now : Str) : Json :=
  .obj
    [ ("title".data, .str title)
    , ("format".data, .num 3)
    , ("revision".data, .str ("db_export_".data ++ now))
    , ("sequenced".data, .bool true)
    , ("description".data, .str ("Словарь ".data ++ [Char.ofNat 39] ++ title
        ++ [Char.ofNat 39] ++ ", экспортированный из базы данных SQLite.".data))
    , ("author".data, .str "DB to Yomitan Exporter".data)
    ]

/-- Python english_str.split over the delimiter at src/reverse.py line 89:
the value read from the english column must be a string, otherwise the
attribute lookup of split raises an uncaught AttributeError. -/
def pySplitVal : Json → Except PyErr (List Str)
  | .str s => .ok (pySplit s)
  | _ => .error .uncaught

/-- Yomitan entry built from one table row at src/reverse.py lines 86-93:
split the english column, then emit the six-element array with an empty
string in the fourth position and int applied to the priority. -/
def rowEntry (r : Row) : Except PyErr Json := do
  let ts ← pySplitVal r.english
  let pr ← pyInt r.priority
  .ok (.arr [r.word, r.reading, r.kind, .str [], .num pr, .arr (ts.map Json.str)])

/-- Chunking engine of the export loop at src/reverse.py lines 81-114,
abstracted over the element type: entries accumulate in a buffer that is
flushed as a numbered shard whenever it reaches the chunk size, and any
nonempty remainder is flushed as a final shard. -/
def chunkLoop {α : Type} (C : Nat) : List α → List α → Nat → List (Nat × List α)
  | [], buf, n => if buf.isEmpty then [] else [(n, buf)]
  | x :: rest, buf, n =>
      if C ≤ (buf ++ [x]).length then (n, buf ++ [x]) :: chunkLoop C rest [] (n + 1)
      else chunkLoop C rest (buf ++ [x]) n

/-- The export loop at src/reverse.py lines 81-114 as it acts on the zip
member list: each row is rendered into a Yomitan entry, full buffers are
written as term bank members, and the first failing row stops the loop,
leaving exactly the members written so far in the archive (the zipfile
context manager closes the partially written file in place). -/
def exportLoop (C : Nat) : List Row → List Json → Nat → List (String × FileContent) →
    Bool × List (String × FileContent)
  | [], buf, n, out =>
      (true, out ++ if buf.isEmpty then [] else [(termBankName n, .json (.arr buf))])
  | r :: rest, buf, n, out =>
      match rowEntry r with
      | .error _ => (false, out)
      | .ok e =>
          if C ≤ (buf ++ [e]).length then
            exportLoop C rest [] (n + 1) (out ++ [(termBankName n, .json (.arr (buf ++ [e])))])
          else exportLoop C rest (buf ++ [e]) n out

/-- Export of the whole table, export_to_yomitan_zip at src/reverse.py
lines 37-122: the archive at the output path receives index.json first,
then the empty tag_bank_1.json, then the term bank shards; the first
component reports whether the export ran to completion, and the second
component is the member list present at the output path afterwards, which
on failure is the partially written archive. -/
def export_to_yomitan_zip (C : Nat) (rows : List Row) (title now : Str) :
    Bool × List (String × FileContent) :=
  exportLoop C rows [] 1
    [("index.json", .json (create_index_json title now)),
     ("tag_bank_1.json", .json (.arr []))]

/-- State of the sqlite database file behind the export: its rows and
whether the word index exists. -/
structure Db where
  rows : List Row
  indexed : Bool
  deriving DecidableEq

/-- Statements this code base issues against the database. -/
inductive SqlStmt where
  | createTable : SqlStmt
  | insertRows (rs : List Row) : SqlStmt
  | createIndex : SqlStmt
  | selectAll : SqlStmt

/-- Effect of one statement issued through the read-only connection opened
with mode=ro at src/reverse.py line 47: the SELECT reads and leaves the
database unchanged, every writing statement fails with the caught
sqlite3.OperationalError of a read-only database. -/
def runStmtRO (db : Db) : SqlStmt → Except PyErr Db
  | .selectAll => .ok db
  | _ => .error .caught

/-- Run a statement list through the read-only connection, stopping at the
first failure. -/
def runStmtsRO (db : Db) : List SqlStmt → Except PyErr Db
  | [] => .ok db
  | s :: rest => do
      let db2 ← runStmtRO db s
      runStmtsRO db2 rest

/-- Database statements issued by export_to_yomitan_zip: the single SELECT
at src/reverse.py line 49. -/
def exportDbStmts : List SqlStmt := [.selectAll]

theorem chunkLoop_flatten {α : Type} (C : Nat) :
    ∀ (l buf : List α) (n : Nat),
      ((chunkLoop C l buf n).map Prod.snd).flatten = buf ++ l := by
  intro l
  induction l with
  | nil => intro buf n; cases buf <;> simp [chunkLoop]
  | cons x rest ih =>
    intro buf n
    by_cases h : C ≤ (buf ++ [x]).length
    · rw [chunkLoop, if_pos h]
      simp only [List.map_cons, List.flatten_cons, ih]
      simp
    · rw [chunkLoop, if_neg h, ih]
      simp

theorem chunkLoop_idx {α : Type} (C : Nat) :
    ∀ (l buf : List α) (n : Nat),
      (chunkLoop C l buf n).map Prod.fst =
        List.range' n (chunkLoop C l buf n).length := by
  intro l
  induction l with
  | nil => intro buf n; cases buf <;> simp [chunkLoop]
  | cons x rest ih =>
    intro buf n
    by_cases h : C ≤ (buf ++ [x]).length
    · rw [chunkLoop, if_pos h]
      simp only [List.map_cons, List.length_cons, List.range'_succ]
      rw [ih]
    · rw [chunkLoop, if_neg h]
      exact ih _ n

theorem chunkLoop_eq_nil {α : Type} {C : Nat} {l buf : List α} {n : Nat}
    (h : chunkLoop C l buf n = []) : buf = [] ∧ l = [] := by
  have := chunkLoop_flatten C l buf n
  rw [h] at this
  simp only [List.map_nil, List.flatten_nil] at this
  constructor
  · exact (List.append_eq_nil.mp this.symm).1
  · exact (List.append_eq_nil.mp this.symm).2

theorem chunkLoop_count {α : Type} (C : Nat) (hC : 0 < C) :
    ∀ (l buf : List α) (n : Nat), buf.length < C →
      (chunkLoop C l buf n).length = (buf.length + l.length + C - 1) / C := by
  intro l
  induction l with
  | nil =>
    intro buf n hb
    cases hbuf : buf with
    | nil =>
      have h0 : (C - 1) / C = 0 := Nat.div_eq_of_lt (by omega)
      simp [chunkLoop, h0]
    | cons b bs =>
      subst hbuf
      have hb2 : bs.length + 1 < C := by simpa using hb
      have hres : chunkLoop C ([] : List α) (b :: bs) n = [(n, b :: bs)] := by
        simp [chunkLoop]
      have h1 : (b :: bs).length + ([] : List α).length + C - 1 = bs.length + C := by
        simp only [List.length_cons, List.length_nil, Nat.add_zero]
        omega
      have h2 : (bs.length + C) / C = 1 := Nat.div_eq_of_lt_le (by omega) (by omega)
      rw [hres, List.length_singleton, h1, h2]
  | cons x rest ih =>
    intro buf n hb
    by_cases h : C ≤ (buf ++ [x]).length
    · have hbc : buf.length + 1 = C := by
        simp only [List.length_append, List.length_singleton] at h
        omega
      rw [chunkLoop, if_pos h]
      rw [List.length_cons, ih [] (n + 1) hC]
      have h2 : buf.length + (x :: rest).length + C - 1
          = ([] : List α).length + rest.length + C - 1 + C := by
        simp
        omega
      rw [h2, Nat.add_div_right _ hC]
    · have hlt : (buf ++ [x]).length < C := by
        simp only [List.length_append, List.length_singleton] at h ⊢
        omega
      rw [chunkLoop, if_neg h]
      rw [ih (buf ++ [x]) n hlt]
      congr 1
      simp
      omega

theorem chunkLoop_dropLast_size {α : Type} (C : Nat) (hC : 0 < C) :
    ∀ (l buf : List α) (n : Nat), buf.length < C →
      ∀ p ∈ (chunkLoop C l buf n).dropLast, p.2.length = C := by
  intro l
  induction l with
  | nil =>
    intro buf n hb p hp
    cases buf <;> simp [chunkLoop] at hp
  | cons x rest ih =>
    intro buf n hb p hp
    by_cases h : C ≤ (buf ++ [x]).length
    · have hbc : (buf ++ [x]).length = C := by
        simp only [List.length_append, List.length_singleton] at h ⊢
        omega
      rw [chunkLoop, if_pos h] at hp
      cases hrest : chunkLoop C rest ([] : List α) (n + 1) with
      | nil =>
        rw [hrest] at hp
        simp at hp
      | cons q qs =>
        rw [hrest, List.dropLast_cons_of_ne_nil (List.cons_ne_nil q qs)] at hp
        rcases List.mem_cons.mp hp with hp1 | hp2
        · rw [hp1, hbc]
        · have hih := ih [] (n + 1) (by simpa using hC)
          rw [hrest] at hih
          exact hih p hp2
    · have hlt : (buf ++ [x]).length < C := by
        simp only [List.length_append, List.length_singleton] at h ⊢
        omega
      rw [chunkLoop, if_neg h] at hp
      exact ih (buf ++ [x]) n hlt p hp

theorem chunkLoop_getLast_size {α : Type} (C : Nat) (hC : 0 < C) :
    ∀ (l buf : List α) (n : Nat), buf.length < C →
      ∀ p ∈ (chunkLoop C l buf n).getLast?,
        p.2.length = if (buf.length + l.length) % C = 0 then C
          else (buf.length + l.length) % C := by
  intro l
  induction l with
  | nil =>
    intro buf n hb p hp
    cases hbuf : buf with
    | nil =>
      subst hbuf
      simp [chunkLoop] at hp
    | cons b bs =>
      subst hbuf
      have hb2 : bs.length + 1 < C := by simpa using hb
      have hres : chunkLoop C ([] : List α) (b :: bs) n = [(n, b :: bs)] := by
        simp [chunkLoop]
      rw [hres] at hp
      simp only [List.getLast?_singleton, Option.mem_def, Option.some.injEq] at hp
      subst hp
      have hmod : ((b :: bs).length + ([] : List α).length) % C = bs.length + 1 := by
        simp only [List.length_cons, List.length_nil, Nat.add_zero]
        exact Nat.mod_eq_of_lt (by omega)
      rw [hmod, if_neg (by omega)]
      simp
  | cons x rest ih =>
    intro buf n hb p hp
    by_cases h : C ≤ (buf ++ [x]).length
    · have hbc : buf.length + 1 = C := by
        simp only [List.length_append, List.length_singleton] at h
        omega
      rw [chunkLoop, if_pos h] at hp
      cases hrest : chunkLoop C rest ([] : List α) (n + 1) with
      | nil =>
        have hrestnil : rest = [] := (chunkLoop_eq_nil hrest).2
        rw [hrest] at hp
        simp only [List.getLast?_singleton, Option.mem_def, Option.some.injEq] at hp
        subst hp
        subst hrestnil
        have hmod : (buf.length + ([x] : List α).length) % C = 0 := by
          simp only [List.length_singleton]
          rw [hbc]
          exact Nat.mod_self C
        rw [show (x :: ([] : List α)) = [x] from rfl, hmod, if_pos rfl]
        simp only [List.length_append, List.length_singleton]
        omega
      | cons q qs =>
        rw [hrest] at hp
        rw [List.getLast?_cons_cons] at hp
        have hih := ih [] (n + 1) (by simpa using hC) p (by rw [hrest]; exact hp)
        have hmod : (buf.length + (x :: rest).length) % C
            = (([] : List α).length + rest.length) % C := by
          simp only [List.length_cons, List.length_nil, Nat.zero_add]
          have h3 : buf.length + (rest.length + 1) = C + rest.length := by omega
          rw [h3, Nat.add_mod_left]
        rw [hmod]
        exact hih
    · have hlt : (buf ++ [x]).length < C := by
        simp only [List.length_append, List.length_singleton] at h ⊢
        omega
      rw [chunkLoop, if_neg h] at hp
      have hih := ih (buf ++ [x]) n hlt p hp
      have hmod : buf.length + (x :: rest).length
          = (buf ++ [x]).length + rest.length := by
        have h4 : (buf ++ [x]).length = buf.length + 1 := by simp
        rw [h4, List.length_cons]
        omega
      rw [hmod]
      exact hih

/-- Test that rendering a table row into a Yomitan entry succeeds. -/
def rowOk (r : Row) : Bool :=
  match rowEntry r with
  | .ok _ => true
  | .error _ => false

/-- The rendered Yomitan entry of a row whose rendering succeeds. -/
def rowEntryD (r : Row) : Json :=
  match rowEntry r with
  | .ok e => e
  | .error _ => .null

/-- Key lookup in a JSON object, used to state what the metadata document
contains. -/
def jsonLookup (j : Json) (key : Str) : Option Json :=
  match j with
  | .obj fs =>
      match fs.find? (fun f => f.1 == key) with
      | some f => some f.2
      | none => none
  | _ => none

theorem exportLoop_ok (C : Nat) :
    ∀ (rows : List Row) (buf : List Json) (n : Nat)
      (out : List (String × FileContent)),
      (∀ r ∈ rows, rowOk r = true) →
      exportLoop C rows buf n out =
        (true, out ++ (chunkLoop C (rows.map rowEntryD) buf n).map
          (fun p => (termBankName p.1, FileContent.json (.arr p.2)))) := by
  intro rows
  induction rows with
  | nil =>
    intro buf n out hall
    cases buf <;> simp [exportLoop, chunkLoop]
  | cons r rest ih =>
    intro buf n out hall
    have hok : rowOk r = true := hall r (by simp)
    cases hre : rowEntry r with
    | error e => rw [rowOk, hre] at hok; exact absurd hok (by simp)
    | ok e =>
      have hD : rowEntryD r = e := by rw [rowEntryD, hre]
      have hstep : exportLoop C (r :: rest) buf n out =
          if C ≤ (buf ++ [e]).length then
            exportLoop C rest [] (n + 1)
              (out ++ [(termBankName n, .json (.arr (buf ++ [e])))])
          else exportLoop C rest (buf ++ [e]) n out := by
        rw [exportLoop, hre]
      rw [hstep]
      by_cases hfull : C ≤ (buf ++ [e]).length
      · rw [if_pos hfull]
        rw [ih [] (n + 1) _ (fun x hx => hall x (by simp [hx]))]
        rw [List.map_cons, hD, chunkLoop, if_pos hfull, List.map_cons]
        simp
      · rw [if_neg hfull]
        rw [ih (buf ++ [e]) n out (fun x hx => hall x (by simp [hx]))]
        rw [List.map_cons, hD, chunkLoop, if_neg hfull]

theorem strListOf_map : ∀ gs : List Str, strListOf (gs.map Json.str) = some gs := by
  intro gs
  induction gs with
  | nil => rfl
  | cons g rest ih => simp [strListOf, asStr, ih]

theorem exportLoop_out_front (C : Nat) :
    ∀ (rows : List Row) (buf : List Json) (n : Nat)
      (out : List (String × FileContent)),
      ∃ t, (exportLoop C rows buf n out).2 = out ++ t := by
  intro rows
  induction rows with
  | nil =>
    intro buf n out
    exact ⟨_, rfl⟩
  | cons r rest ih =>
    intro buf n out
    cases hre : rowEntry r with
    | error e =>
      refine ⟨[], ?_⟩
      have hstep : exportLoop C (r :: rest) buf n out = (false, out) := by
        rw [exportLoop, hre]
      rw [hstep]
      simp
    | ok e =>
      have hstep : exportLoop C (r :: rest) buf n out =
          if C ≤ (buf ++ [e]).length then
            exportLoop C rest [] (n + 1)
              (out ++ [(termBankName n, .json (.arr (buf ++ [e])))])
          else exportLoop C rest (buf ++ [e]) n out := by
        rw [exportLoop, hre]
      rw [hstep]
      by_cases hfull : C ≤ (buf ++ [e]).length
      · rw [if_pos hfull]
        obtain ⟨t, ht⟩ := ih [] (n + 1) (out ++ [(termBankName n, .json (.arr (buf ++ [e])))])
        exact ⟨_, by rw [ht, List.append_assoc]⟩
      · rw [if_neg hfull]
        exact ih (buf ++ [e]) n out

/-- C7: a well-typed shard entry that is an array of at least six elements
decodes through the fixed positional mapping: word from element 0, reading
from element 1, kind from element 2, priority from element 4 stored
verbatim, translation stored as the join of element 5; element 3 is
discarded, the decoded row depending neither on it nor on any element past
the sixth. -/
theorem decode_positional_mapping (w r k x : Json) (p : Int) (gs : List Str)
    (rest : List Json) :
    decodeEntry (.arr ([w, r, k, x, .num p, .arr (gs.map Json.str)] ++ rest)) =
      .ok ⟨w, r, k, .str (pyJoin gs), .num p⟩ := by
  show decodeEntry
      (.arr (w :: r :: k :: x :: .num p :: .arr (gs.map Json.str) :: rest)) = _
  have hjoin : pyJoinVal (.arr (gs.map Json.str)) = .ok (pyJoin gs) := by
    rw [pyJoinVal, strListOf_map]
  rw [decodeEntry]
  rw [hjoin]
  rfl

/-- C2: the stateless export re-chunks the rendered entry sequence with
chunk size C (the constant defaults to 10000): the archive holds the
metadata and tag members followed by exactly ceil(L / C) entry shards,
every shard except possibly the last holds C entries, the last holds
L mod C entries (or C when L mod C = 0), shard indices are 1, 2, ... in
ascending numeric order, and concatenating the shards in that order
reproduces the rendered input sequence. -/
theorem stateless_rechunking (C : Nat) (hC : 0 < C) (rows : List Row)
    (hrows : ∀ r ∈ rows, rowOk r = true) (title now : Str) :
    (export_to_yomitan_zip C rows title now).2 =
      [("index.json", .json (create_index_json title now)),
       ("tag_bank_1.json", .json (.arr []))]
      ++ (chunkLoop C (rows.map rowEntryD) [] 1).map
          (fun p => (termBankName p.1, FileContent.json (.arr p.2)))
    ∧ (chunkLoop C (rows.map rowEntryD) [] 1).length = (rows.length + C - 1) / C
    ∧ (∀ p ∈ (chunkLoop C (rows.map rowEntryD) [] 1).dropLast, p.2.length = C)
    ∧ (∀ p ∈ (chunkLoop C (rows.map rowEntryD) [] 1).getLast?,
        p.2.length = if rows.length % C = 0 then C else rows.length % C)
    ∧ ((chunkLoop C (rows.map rowEntryD) [] 1).map Prod.snd).flatten
        = rows.map rowEntryD
    ∧ (chunkLoop C (rows.map rowEntryD) [] 1).map Prod.fst
        = List.range' 1 (chunkLoop C (rows.map rowEntryD) [] 1).length
    ∧ CHUNK_SIZE = 10000 := by
  have hb : ([] : List Json).length < C := by simpa using hC
  refine ⟨?_, ?_, ?_, ?_, ?_, ?_, rfl⟩
  · rw [export_to_yomitan_zip, exportLoop_ok C rows [] 1 _ hrows]
  · rw [chunkLoop_count C hC _ [] 1 hb]
    simp
  · exact chunkLoop_dropLast_size C hC _ [] 1 hb
  · intro p hp
    have := chunkLoop_getLast_size C hC (rows.map rowEntryD) [] 1 hb p hp
    simpa using this
  · rw [chunkLoop_flatten]
    simp
  · exact chunkLoop_idx C _ [] 1

theorem stateless_rechunking_witness :
    let rows : List Row :=
      [⟨.str ['a'], .str [], .str [], .str ['g'], .num 1⟩,
       ⟨.str ['b'], .str [], .str [], .str ['h'], .num 2⟩,
       ⟨.str ['c'], .str [], .str [], .str ['i'], .num 3⟩]
    (export_to_yomitan_zip 2 rows ['t'] ['n']).2 =
      [("index.json", .json (create_index_json ['t'] ['n'])),
       ("tag_bank_1.json", .json (.arr []))]
      ++ (chunkLoop 2 (rows.map rowEntryD) [] 1).map
          (fun p => (termBankName p.1, FileContent.json (.arr p.2)))
    ∧ (chunkLoop 2 (rows.map rowEntryD) [] 1).length = (rows.length + 2 - 1) / 2
    ∧ (∀ p ∈ (chunkLoop 2 (rows.map rowEntryD) [] 1).dropLast, p.2.length = 2)
    ∧ (∀ p ∈ (chunkLoop 2 (rows.map rowEntryD) [] 1).getLast?,
        p.2.length = if rows.length % 2 = 0 then 2 else rows.length % 2)
    ∧ ((chunkLoop 2 (rows.map rowEntryD) [] 1).map Prod.snd).flatten
        = rows.map rowEntryD
    ∧ (chunkLoop 2 (rows.map rowEntryD) [] 1).map Prod.fst
        = List.range' 1 (chunkLoop 2 (rows.map rowEntryD) [] 1).length
    ∧ CHUNK_SIZE = 10000 :=
  stateless_rechunking 2 (by decide) _ (by decide) ['t'] ['n']

/-- C10: exporting a table with zero rows succeeds and produces an archive
holding exactly the metadata member and the single empty tag member, with
no term bank members, because the final partial shard is flushed only when
the buffer is nonempty. -/
theorem export_empty_table (title now : Str) :
    export_to_yomitan_zip CHUNK_SIZE [] title now =
      (true, [("index.json", .json (create_index_json title now)),
              ("tag_bank_1.json", .json (.arr []))]) := rfl

/-- C8: every completed export writes, before any entry shard, the freshly
generated metadata member index.json whose object carries title, format 3,
a revision derived from the timestamp, sequenced true, description and
author, then the empty tag member, and names the entry shards
term_bank_N.json with N starting at 1 and contiguous. -/
theorem export_archive_structure (rows : List Row)
    (hrows : ∀ r ∈ rows, rowOk r = true) (title now : Str) :
    (export_to_yomitan_zip CHUNK_SIZE rows title now).1 = true
    ∧ (∃ shards,
        (export_to_yomitan_zip CHUNK_SIZE rows title now).2 =
          ("index.json", .json (create_index_json title now))
            :: ("tag_bank_1.json", .json (.arr [])) :: shards
        ∧ shards.map Prod.fst = (List.range' 1 shards.length).map termBankName)
    ∧ jsonLookup (create_index_json title now) "title".data = some (.str title)
    ∧ jsonLookup (create_index_json title now) "format".data = some (.num 3)
    ∧ jsonLookup (create_index_json title now) "revision".data
        = some (.str ("db_export_".data ++ now))
    ∧ jsonLookup (create_index_json title now) "sequenced".data = some (.bool true)
    ∧ (jsonLookup (create_index_json title now) "description".data).isSome = true
    ∧ (jsonLookup (create_index_json title now) "author".data).isSome = true := by
  have hok := exportLoop_ok CHUNK_SIZE rows [] 1
    [("index.json", .json (create_index_json title now)),
     ("tag_bank_1.json", .json (.arr []))] hrows
  refine ⟨?_, ?_, rfl, rfl, rfl, rfl, rfl, rfl⟩
  · rw [export_to_yomitan_zip, hok]
  · refine ⟨(chunkLoop CHUNK_SIZE (rows.map rowEntryD) [] 1).map
      (fun p => (termBankName p.1, FileContent.json (.arr p.2))), ?_, ?_⟩
    · rw [export_to_yomitan_zip, hok]
      rfl
    · have hcomp : (((chunkLoop CHUNK_SIZE (rows.map rowEntryD) [] 1).map
          (fun p => (termBankName p.1, FileContent.json (.arr p.2)))).map Prod.fst)
          = ((chunkLoop CHUNK_SIZE (rows.map rowEntryD) [] 1).map Prod.fst).map
              termBankName := by
        rw [List.map_map, List.map_map]
        rfl
      rw [hcomp, chunkLoop_idx, List.length_map]

theorem export_archive_structure_witness :
    let rows : List Row := [⟨.str ['a'], .str [], .str [], .str ['g'], .num 1⟩]
    (export_to_yomitan_zip CHUNK_SIZE rows ['t'] ['n']).1 = true
    ∧ (∃ shards,
        (export_to_yomitan_zip CHUNK_SIZE rows ['t'] ['n']).2 =
          ("index.json", .json (create_index_json ['t'] ['n']))
            :: ("tag_bank_1.json", .json (.arr [])) :: shards
        ∧ shards.map Prod.fst = (List.range' 1 shards.length).map termBankName)
    ∧ jsonLookup (create_index_json ['t'] ['n']) "title".data = some (.str ['t'])
    ∧ jsonLookup (create_index_json ['t'] ['n']) "format".data = some (.num 3)
    ∧ jsonLookup (create_index_json ['t'] ['n']) "revision".data
        = some (.str ("db_export_".data ++ ['n']))
    ∧ jsonLookup (create_index_json ['t'] ['n']) "sequenced".data = some (.bool true)
    ∧ (jsonLookup (create_index_json ['t'] ['n']) "description".data).isSome = true
    ∧ (jsonLookup (create_index_json ['t'] ['n']) "author".data).isSome = true :=
  export_archive_structure [⟨.str ['a'], .str [], .str [], .str ['g'], .num 1⟩]
    (by decide) ['t'] ['n']

/-- C9: exporting never modifies the table: the export issues only the one
SELECT through its read-only connection, which succeeds and returns the
database unchanged, and more generally no statement sequence that succeeds
through the read-only connection can change the database state. -/
theorem export_readonly_database :
    (∀ db : Db, runStmtsRO db exportDbStmts = .ok db)
    ∧ ∀ (db db2 : Db) (stmts : List SqlStmt),
        runStmtsRO db stmts = .ok db2 → db2 = db := by
  constructor
  · intro db
    rfl
  · intro db db2 stmts
    induction stmts with
    | nil =>
      intro h
      exact (Except.ok.inj h).symm
    | cons s rest ih =>
      cases s with
      | selectAll => intro h; exact ih h
      | createTable => intro h; exact Except.noConfusion h
      | insertRows rs => intro h; exact Except.noConfusion h
      | createIndex => intro h; exact Except.noConfusion h

theorem export_readonly_database_witness :
    runStmtsRO ⟨[⟨.str ['a'], .str [], .str [], .str ['g'], .num 1⟩], true⟩ exportDbStmts
      = .ok ⟨[⟨.str ['a'], .str [], .str [], .str ['g'], .num 1⟩], true⟩
    ∧ (⟨[], false⟩ : Db) = ⟨[], false⟩ :=
  ⟨export_readonly_database.1 ⟨[⟨.str ['a'], .str [], .str [], .str ['g'], .num 1⟩], true⟩,
   export_readonly_database.2 ⟨[], false⟩ ⟨[], false⟩ [.selectAll] (by decide)⟩

/-- C3 amended: splitting the joined stored string on the delimiter yields
the original gloss list back for every nonempty list of glosses none of
which contains the delimiter; for the empty list the stored string is
empty, but splitting the empty stored string yields a one-element sequence
holding the empty string, exactly as Python str.split does. -/
theorem gloss_join_split_amended :
    (∀ parts : List Str, parts ≠ [] → (∀ p ∈ parts, hasSep p = false) →
      pySplit (pyJoin parts) = parts)
    ∧ pyJoin [] = []
    ∧ pySplit [] = [[]] :=
  ⟨pySplit_pyJoin, rfl, rfl⟩

theorem gloss_join_split_amended_witness :
    pySplit (pyJoin [['d', 'o', 'g'], ['c', 'a', 't']]) = [['d', 'o', 'g'], ['c', 'a', 't']] :=
  gloss_join_split_amended.1 [['d', 'o', 'g'], ['c', 'a', 't']] (by decide) (by decide)

theorem gloss_join_split_empty_counterexample :
    pySplit (pyJoin ([] : List Str)) = [[]] ∧ ([[]] : List Str) ≠ [] := by decide

/-- Rows of each processed shard, shard by shard, in the order the member
list presents them. -/
def shardRowsList : List (String × FileContent) → Except PyErr (List (List Row))
  | [] => .ok []
  | m :: rest => do
      let rs ← importShard m.2
      let more ← shardRowsList rest
      .ok (rs :: more)

/-- C5 amended: the archive reader visits entry shards in the order the
archive member list presents them, with no numeric or lexicographic
reordering: the imported row sequence is the concatenation, shard by
shard in member-list order, of the decoded non-skipped members. -/
theorem import_member_order (ms : List (String × FileContent)) :
    importMembers ms =
      (shardRowsList (ms.filter (fun m => !skipName m.1))).map List.flatten := by
  induction ms with
  | nil => rfl
  | cons m rest ih =>
    obtain ⟨name, c⟩ := m
    rw [List.filter_cons]
    by_cases h : skipName name = true
    · rw [importMembers, if_pos h]
      simp only [h, Bool.not_true, Bool.false_eq_true, if_false]
      exact ih
    · have h2 : skipName name = false := by
        cases hx : skipName name
        · rfl
        · exact absurd hx h
      rw [importMembers, if_neg h]
      simp only [h2, Bool.not_false, if_true]
      cases himp : importShard c with
      | error e =>
        rw [shardRowsList]
        simp only [himp]
        rfl
      | ok rs =>
        rw [shardRowsList]
        simp only [himp]
        cases hrest : shardRowsList (rest.filter (fun m => !skipName m.1)) with
        | error e2 =>
          have : importMembers rest = .error e2 := by
            rw [ih, hrest]
            rfl
          simp only [this]
          rfl
        | ok ls =>
          have : importMembers rest = .ok ls.flatten := by
            rw [ih, hrest]
            rfl
          simp only [this]
          show Except.ok (rs ++ ls.flatten) = Except.ok (rs :: ls).flatten
          rw [List.flatten_cons]

theorem import_numeric_order_counterexample :
    importMembers
        [("term_bank_10.json",
            .json (.arr [.arr [.str ['x'], .str [], .str [], .null, .num 1, .arr []]])),
         ("term_bank_2.json",
            .json (.arr [.arr [.str ['y'], .str [], .str [], .null, .num 2, .arr []]]))]
      = .ok [⟨.str ['x'], .str [], .str [], .str [], .num 1⟩,
             ⟨.str ['y'], .str [], .str [], .str [], .num 2⟩]
    ∧ "term_bank_10.json" = termBankName 10
    ∧ "term_bank_2.json" = termBankName 2
    ∧ (⟨.str ['x'], .str [], .str [], .str [], .num 1⟩ : Row)
        ≠ ⟨.str ['y'], .str [], .str [], .str [], .num 2⟩
    ∧ (2 : Nat) < 10 := by decide

/-- Well-typed shard entry: an array of at least six elements whose first
three positions bind as sqlite parameters, whose fifth position is an
integer and whose sixth position is a list of strings. -/
def WFEntryB : Json → Bool
  | .arr (w :: r :: k :: _ :: .num _ :: .arr ts :: _) =>
      bindable w && bindable r && bindable k && ts.all (fun t => (asStr t).isSome)
  | _ => false

/-- Well-typed shard: decodable JSON bytes holding an array of well-typed
entries. -/
def WFShardB : FileContent → Bool
  | .json (.arr es) => es.all WFEntryB
  | _ => false

/-- Test for undecodable member bytes. -/
def isRawContent : FileContent → Bool
  | .raw _ => true
  | .json _ => false

/-- Archive whose import is decided by the caught exception classes alone:
either the container is bad, or every non-skipped member is a well-typed
shard or undecodable bytes. -/
def decodableArchive : ZipSrc → Bool
  | .bad => true
  | .good ms => ms.all (fun m => skipName m.1 || WFShardB m.2 || isRawContent m.2)

/-- Rows an archive contributes to the table: its decoded rows when the
archive imports cleanly, nothing when it is rolled back. -/
def archiveRows (a : ZipSrc) : List Row :=
  match importArchive a with
  | .ok rs => rs
  | .error _ => []

/-- Test that an archive fails its import with a caught error. -/
def archiveCaught (a : ZipSrc) : Bool :=
  match importArchive a with
  | .error .caught => true
  | _ => false

theorem strListOf_isSome :
    ∀ ts : List Json, (∀ t ∈ ts, (asStr t).isSome = true) →
      ∃ ss, strListOf ts = some ss := by
  intro ts
  induction ts with
  | nil => intro _; exact ⟨[], rfl⟩
  | cons t rest ih =>
    intro h
    obtain ⟨s, hs⟩ := Option.isSome_iff_exists.mp (h t (by simp))
    obtain ⟨ss, hss⟩ := ih (fun x hx => h x (by simp [hx]))
    refine ⟨s :: ss, ?_⟩
    rw [strListOf, hs, hss]

theorem decodeEntry_WF (e : Json) (h : WFEntryB e = true) :
    ∃ row, decodeEntry e = .ok row ∧ bindable row.word = true ∧
      bindable row.reading = true ∧ bindable row.kind = true := by
  unfold WFEntryB at h
  split at h
  case h_2 => exact absurd h (by simp)
  case h_1 w r k x p ts tail =>
    rw [Bool.and_eq_true, Bool.and_eq_true, Bool.and_eq_true] at h
    obtain ⟨⟨⟨hw, hr⟩, hk⟩, hts⟩ := h
    obtain ⟨ss, hss⟩ := strListOf_isSome ts (by
      intro t ht
      exact List.all_eq_true.mp hts t ht)
    refine ⟨⟨w, r, k, .str (pyJoin ss), .num p⟩, ?_, hw, hr, hk⟩
    rw [decodeEntry]
    have hjoin : pyJoinVal (.arr ts) = .ok (pyJoin ss) := by
      rw [pyJoinVal, hss]
    rw [hjoin]
    rfl

theorem decodeRows_WF :
    ∀ es : List Json, (∀ e ∈ es, WFEntryB e = true) →
      ∃ rows, decodeRows es = .ok rows ∧
        rows.all (fun r => bindable r.word && bindable r.reading && bindable r.kind)
          = true := by
  intro es
  induction es with
  | nil => intro _; exact ⟨[], rfl, rfl⟩
  | cons e rest ih =>
    intro h
    obtain ⟨row, hrow, hw, hr, hk⟩ := decodeEntry_WF e (h e (by simp))
    obtain ⟨rows, hrows, hall⟩ := ih (fun x hx => h x (by simp [hx]))
    refine ⟨row :: rows, ?_, ?_⟩
    · rw [decodeRows, hrow, hrows]
      rfl
    · simp only [List.all_cons, hw, hr, hk, hall]
      rfl

theorem importShard_WF (c : FileContent) (h : WFShardB c = true) :
    ∃ rs, importShard c = .ok rs := by
  unfold WFShardB at h
  split at h
  case h_2 => exact absurd h (by simp)
  case h_1 es =>
    obtain ⟨rows, hrows, hall⟩ := decodeRows_WF es (fun e he => List.all_eq_true.mp h e he)
    refine ⟨rows, ?_⟩
    show (do
      let es2 ← entryList (.arr es)
      let rows2 ← decodeRows es2
      if rows2.all (fun r => bindable r.word && bindable r.reading && bindable r.kind)
      then Except.ok rows2 else Except.error PyErr.caught) = Except.ok rows
    rw [show entryList (.arr es) = .ok es from rfl]
    show (do
      let rows2 ← decodeRows es
      if rows2.all (fun r => bindable r.word && bindable r.reading && bindable r.kind)
      then Except.ok rows2 else Except.error PyErr.caught) = Except.ok rows
    rw [hrows]
    show (if rows.all (fun r => bindable r.word && bindable r.reading && bindable r.kind)
      then Except.ok rows else Except.error PyErr.caught) = Except.ok rows
    rw [if_pos hall]

theorem importMembers_not_uncaught :
    ∀ ms : List (String × FileContent),
      (∀ m ∈ ms, skipName m.1 || WFShardB m.2 || isRawContent m.2) →
      importMembers ms ≠ .error .uncaught := by
  intro ms
  induction ms with
  | nil => intro _ h; exact Except.noConfusion h
  | cons m rest ih =>
    intro h
    obtain ⟨name, c⟩ := m
    by_cases hskip : skipName name = true
    · rw [importMembers, if_pos hskip]
      exact ih (fun x hx => h x (by simp [hx]))
    · rw [importMembers, if_neg hskip]
      have hmc := h (name, c) (by simp)
      rw [Bool.or_eq_true, Bool.or_eq_true] at hmc
      rcases hmc with (hsk | hwf) | hraw
      · exact absurd hsk hskip
      · obtain ⟨rs, hrs⟩ := importShard_WF c hwf
        rw [hrs]
        intro hcon
        have hcon2 : (do
            let more ← importMembers rest
            Except.ok (rs ++ more)) = (.error .uncaught : Except PyErr (List Row)) := hcon
        cases hrest : importMembers rest with
        | ok more =>
          rw [hrest] at hcon2
          exact Except.noConfusion hcon2
        | error e2 =>
          rw [hrest] at hcon2
          have h4 : (Except.error e2 : Except PyErr (List Row)) = .error .uncaught := hcon2
          have h5 : e2 = .uncaught := Except.error.inj h4
          exact ih (fun x hx => h x (by simp [hx])) (by rw [hrest, h5])
      · cases c with
        | raw s =>
          intro hcon
          have : (Except.error PyErr.caught : Except PyErr (List Row))
              = .error .uncaught := hcon
          exact PyErr.noConfusion (Except.error.inj this)
        | json j => exact absurd hraw (by simp [isRawContent])

/-- C4 amended: over archives whose members are well-typed shards or
undecodable bytes (or whose container is bad), a failing archive is rolled
back with a caught error and contributes zero rows while every other
archive is imported in full, the run never aborts, and one error report is
printed per failed archive; however, a shard that decodes as JSON but
violates the tuple shape raises an uncaught error that aborts the whole
run instead, and the run prints no final count of failed archives. -/
theorem import_partial_failure_isolation (archives : List ZipSrc)
    (h : ∀ a ∈ archives, decodableArchive a = true) :
    runImport archives =
      ⟨(archives.map archiveRows).flatten, archives.countP archiveCaught, false⟩ := by
  induction archives with
  | nil => rfl
  | cons a rest ih =>
    have hih := ih (fun x hx => h x (by simp [hx]))
    have hnu : importArchive a ≠ .error .uncaught := by
      have hdec := h a (by simp)
      cases a with
      | bad =>
        intro hcon
        exact PyErr.noConfusion (Except.error.inj hcon)
      | good ms =>
        unfold decodableArchive at hdec
        exact importMembers_not_uncaught ms (fun m hm => List.all_eq_true.mp hdec m hm)
    cases himp : importArchive a with
    | ok rows =>
      have hstep : runImport (a :: rest) =
          ⟨rows ++ (runImport rest).rows, (runImport rest).failedArchives,
            (runImport rest).aborted⟩ := by
        rw [runImport, himp]
      have har : archiveRows a = rows := by rw [archiveRows, himp]
      have hac : archiveCaught a = false := by rw [archiveCaught, himp]
      rw [hstep, hih, List.map_cons, List.flatten_cons, har, List.countP_cons, hac]
      simp
    | error err =>
      cases err with
      | uncaught => exact absurd himp hnu
      | caught =>
        have hstep : runImport (a :: rest) =
            ⟨(runImport rest).rows, (runImport rest).failedArchives + 1,
              (runImport rest).aborted⟩ := by
          rw [runImport, himp]
        have har : archiveRows a = [] := by rw [archiveRows, himp]
        have hac : archiveCaught a = true := by rw [archiveCaught, himp]
        rw [hstep, hih, List.map_cons, List.flatten_cons, har, List.countP_cons, hac]
        simp

theorem import_partial_failure_isolation_witness :
    let archives : List ZipSrc :=
      [.good [("term_bank_1.json",
          .json (.arr [.arr [.str ['a'], .str [], .str [], .null, .num 1, .arr []]]))],
       .good [("term_bank_1.json", .raw ['o', 'o', 'p', 's'])],
       .good [("term_bank_1.json",
          .json (.arr [.arr [.str ['c'], .str [], .str [], .null, .num 3, .arr []]]))]]
    runImport archives =
      ⟨(archives.map archiveRows).flatten, archives.countP archiveCaught, false⟩ :=
  import_partial_failure_isolation
    [.good [("term_bank_1.json",
        .json (.arr [.arr [.str ['a'], .str [], .str [], .null, .num 1, .arr []]]))],
     .good [("term_bank_1.json", .raw ['o', 'o', 'p', 's'])],
     .good [("term_bank_1.json",
        .json (.arr [.arr [.str ['c'], .str [], .str [], .null, .num 3, .arr []]]))]]
    (by decide)

theorem import_shape_error_aborts_run_counterexample :
    runImport
        [.good [("term_bank_1.json",
            .json (.arr [.arr [.str ['a'], .str [], .str [], .null, .num 1, .arr []]]))],
         .good [("term_bank_1.json", .json (.arr [.arr [.str ['x'], .str ['y']]]))],
         .good [("term_bank_1.json",
            .json (.arr [.arr [.str ['c'], .str [], .str [], .null, .num 3, .arr []]]))]]
      = ⟨[⟨.str ['a'], .str [], .str [], .str [], .num 1⟩], 0, true⟩
    ∧ importArchive (.good [("term_bank_1.json",
          .json (.arr [.arr [.str ['c'], .str [], .str [], .null, .num 3, .arr []]]))])
        = .ok [⟨.str ['c'], .str [], .str [], .str [], .num 3⟩]
    ∧ (⟨.str ['c'], .str [], .str [], .str [], .num 3⟩ : Row)
        ∉ [⟨.str ['a'], .str [], .str [], .str [], .num 1⟩]
    ∧ (0 : Nat) ≠ 1 := by decide

/-- C6 amended: the archive is written directly at the output path, not at
a temporary location; when the export fails partway, what remains at the
output path is the partially written archive, beginning with the metadata
member and the tag member followed by the shards completed before the
failure. -/
theorem export_failure_leaves_partial_archive (C : Nat) (rows : List Row)
    (title now : Str)
    (h : (export_to_yomitan_zip C rows title now).1 = false) :
    ∃ shards, (export_to_yomitan_zip C rows title now).2 =
      ("index.json", .json (create_index_json title now))
        :: ("tag_bank_1.json", .json (.arr [])) :: shards := by
  obtain ⟨t, ht⟩ := exportLoop_out_front C rows [] 1
    [("index.json", .json (create_index_json title now)),
     ("tag_bank_1.json", .json (.arr []))]
  refine ⟨t, ?_⟩
  show (exportLoop C rows [] 1
    [("index.json", .json (create_index_json title now)),
     ("tag_bank_1.json", .json (.arr []))]).2 = _
  rw [ht]
  rfl

theorem export_failure_leaves_partial_archive_witness :
    ((export_to_yomitan_zip CHUNK_SIZE
        [⟨.str [], .str [], .str [], .num 0, .num 0⟩] ['t'] ['n']).1 = false)
    ∧ ∃ shards, (export_to_yomitan_zip CHUNK_SIZE
        [⟨.str [], .str [], .str [], .num 0, .num 0⟩] ['t'] ['n']).2 =
      ("index.json", .json (create_index_json ['t'] ['n']))
        :: ("tag_bank_1.json", .json (.arr [])) :: shards :=
  ⟨by decide,
   export_failure_leaves_partial_archive CHUNK_SIZE
     [⟨.str [], .str [], .str [], .num 0, .num 0⟩] ['t'] ['n'] (by decide)⟩

theorem export_failure_partial_counterexample :
    (export_to_yomitan_zip CHUNK_SIZE
        [⟨.str [], .str [], .str [], .num 0, .num 0⟩] ['t'] ['n'])
      = (false,
         [("index.json", .json (create_index_json ['t'] ['n'])),
          ("tag_bank_1.json", .json (.arr []))])
    ∧ ([("index.json", .json (create_index_json ['t'] ['n'])),
        ("tag_bank_1.json", .json (.arr []))] : List (String × FileContent)) ≠ [] := by
  decide

/-- Modelled from the spec: the term-bank naming convention by which the
data-model section classifies archive members into entry shards versus
passthrough blobs; the provenance-preserving variant, whose code is not
under src, partitions members by this test. -/
def isTermBank (name : String) : Bool := strStarts "term_bank_".data name.data

/-- Modelled from the spec: the typed DictionaryEntry of the data model as
read by the provenance-preserving Archive Reader through the fixed
six-element positional mapping; the fourth field is discarded. -/
structure PEntry where
  word : Str
  reading : Str
  kind : Str
  priority : Int
  glosses : List Str
  deriving DecidableEq

/-- Modelled from the spec: decoding of one positional record by the
provenance-preserving Archive Reader; the archive format section fixes
entries to six-element arrays whose sixth element is the gloss list. -/
def decodeEntrySpec : Json → Option PEntry
  | .arr [.str w, .str r, .str k, _, .num p, .arr gl] =>
      match strListOf gl with
      | some gs => some ⟨w, r, k, p, gs⟩
      | none => none
  | _ => none

/-- Pair list elements with their positions counted from i. -/
def withIdx {α : Type} (i : Nat) : List α → List (Nat × α)
  | [] => []
  | x :: xs => (i, x) :: withIdx (i + 1) xs

/-- Modelled from the spec: one row of the extended relational schema,
entry fields flattened with the translation stored as the joined string,
plus the provenance columns source_file and original_index. -/
structure PRow where
  word : Str
  reading : Str
  kind : Str
  english : Str
  priority : Int
  source_file : String
  original_index : Nat
  deriving DecidableEq

/-- Modelled from the spec: the Table Writer row for an entry read at the
given zero-based position of the given shard. -/
def mkPRow (name : String) (i : Nat) (e : PEntry) : PRow :=
  ⟨e.word, e.reading, e.kind, pyJoin e.glosses, e.priority, name, i⟩

/-- Modelled from the spec: decode every entry of one shard, failing the
shard on the first ill-shaped record (EntryDecodeError). -/
def decodeShardSpec : List Json → Option (List PEntry)
  | [] => some []
  | e :: rest =>
      match decodeEntrySpec e, decodeShardSpec rest with
      | some pe, some ps => some (pe :: ps)
      | _, _ => none

/-- Modelled from the spec: the rows one archive member contributes to the
provenance-preserving import: a term-bank member must decode as a JSON
array of positional records, each entry receiving the shard name and its
zero-based position as provenance; every other member contributes no rows;
an ill-shaped shard fails with EntryDecodeError. -/
def provMemberRows (m : String × FileContent) : Option (List PRow) :=
  if isTermBank m.1 then
    match m.2 with
    | .json (.arr es) =>
        match decodeShardSpec es with
        | some ps => some ((withIdx 0 ps).map (fun ip => mkPRow m.1 ip.1 ip.2))
        | none => none
    | _ => none
  else some []

/-- Modelled from the spec: the provenance-preserving import (Archive
Reader plus Table Writer), collecting the rows of every member in member
order; an ill-shaped shard fails the archive. -/
def importProv : List (String × FileContent) → Option (List PRow)
  | [] => some []
  | m :: rest =>
      match provMemberRows m, importProv rest with
      | some rs, some more => some (rs ++ more)
      | _, _ => none

/-- Modelled from the spec: the Table Reader provenance ordering, rows
ordered by source_file first and original_index second, ascending. -/
def keyLE (a b : PRow) : Prop :=
  a.source_file < b.source_file ∨
    (a.source_file = b.source_file ∧ a.original_index ≤ b.original_index)

/-- Strict form of the provenance ordering. -/
def keyLt (a b : PRow) : Prop :=
  a.source_file < b.source_file ∨
    (a.source_file = b.source_file ∧ a.original_index < b.original_index)

instance : DecidableRel keyLE := fun a b =>
  decidable_of_iff (a.source_file < b.source_file ∨
    (a.source_file = b.source_file ∧ a.original_index ≤ b.original_index)) Iff.rfl

instance : DecidableRel keyLt := fun a b =>
  decidable_of_iff (a.source_file < b.source_file ∨
    (a.source_file = b.source_file ∧ a.original_index < b.original_index)) Iff.rfl

/-- Modelled from the spec: the Table Reader in provenance mode streams
the rows sorted by the provenance ordering. -/
def sortRows (rows : List PRow) : List PRow := List.insertionSort keyLE rows

/-- Modelled from the spec: the Table Reader reconstruction of the
translation list, splitting the stored string on the delimiter with an
empty stored string mapped to the empty sequence, not to a one-element
sequence holding the empty string. -/
def specSplit (s : Str) : List Str := if s = [] then [] else pySplit s

/-- Modelled from the spec: the Archive Writer rendering of one row back
into the positional tuple shape, the discarded slot re-emitted as an
empty placeholder string. -/
def renderPRow (r : PRow) : Json :=
  .arr [.str r.word, .str r.reading, .str r.kind, .str [], .num r.priority,
    .arr ((specSplit r.english).map Json.str)]

/-- Group a provenance-ordered row list into maximal consecutive runs
sharing one source shard name. -/
def groupRuns : List PRow → List (String × List PRow)
  | [] => []
  | r :: rest =>
      match groupRuns rest with
      | [] => [(r.source_file, [r])]
      | (n, g) :: gs =>
          if n = r.source_file then (r.source_file, r :: g) :: gs
          else (r.source_file, [r]) :: (n, g) :: gs

/-- Modelled from the spec: the provenance-preserving Archive Writer:
copy every member of the reference archive that is not an entry shard
verbatim, then serialize each group of the provenance-ordered rows as one
shard reusing the recorded shard name. -/
def exportProv (rows : List PRow) (ref : List (String × FileContent)) :
    List (String × FileContent) :=
  ref.filter (fun m => !isTermBank m.1)
    ++ (groupRuns rows).map (fun g => (g.1, FileContent.json (.arr (g.2.map renderPRow))))

/-- Replacement of the discarded fourth slot of a positional record by the
empty placeholder the export writes back. -/
def normalizeEntry : Json → Json
  | .arr (a :: b :: c :: _ :: rest) => .arr (a :: b :: c :: .str [] :: rest)
  | j => j

/-- The placeholder replacement applied to every entry of a shard. -/
def normalizeContent : FileContent → FileContent
  | .json (.arr es) => .json (.arr (es.map normalizeEntry))
  | c => c

/-- The placeholder replacement applied to an archive member: entry shard
contents are normalized, every other member is untouched. -/
def normalizeMember (m : String × FileContent) : String × FileContent :=
  if isTermBank m.1 then (m.1, normalizeContent m.2) else m

/-- Round-trippable entry: well typed, with no gloss containing the
delimiter and a translation list that is not the single empty gloss. -/
def entryOKB (e : Json) : Bool :=
  match decodeEntrySpec e with
  | some pe => pe.glosses.all (fun g => !hasSep g) && !(pe.glosses == [[]])
  | none => false

/-- Round-trippable shard: decodable bytes holding a nonempty array of
round-trippable entries. -/
def shardOKB : FileContent → Bool
  | .json (.arr es) => !(es == []) && es.all entryOKB
  | _ => false

/-- Rows one member contributes to the provenance-preserving import. -/
def provShardRows (m : String × FileContent) : List PRow :=
  match m.2 with
  | .json (.arr es) =>
      match decodeShardSpec es with
      | some ps => (withIdx 0 ps).map (fun ip => mkPRow m.1 ip.1 ip.2)
      | none => []
  | _ => []

/-- Reference ordering of archive members by name, used by the writer to
iterate distinct shard names deterministically. -/
def nameLE (m1 m2 : String × FileContent) : Prop := m1.1 ≤ m2.1

instance : DecidableRel nameLE := fun m1 m2 =>
  decidable_of_iff (m1.1 ≤ m2.1) Iff.rfl

/-- Archive members ordered by name. -/
def sortMembers (ms : List (String × FileContent)) : List (String × FileContent) :=
  List.insertionSort nameLE ms

instance : IsTotal PRow keyLE :=
  ⟨fun a b => by
    rcases lt_trichotomy a.source_file b.source_file with h | h | h
    · exact Or.inl (Or.inl h)
    · rcases Nat.le_total a.original_index b.original_index with h2 | h2
      · exact Or.inl (Or.inr ⟨h, h2⟩)
      · exact Or.inr (Or.inr ⟨h.symm, h2⟩)
    · exact Or.inr (Or.inl h)⟩

instance : IsTrans PRow keyLE :=
  ⟨fun a b c hab hbc => by
    rcases hab with h1 | ⟨h1, h1i⟩
    · rcases hbc with h2 | ⟨h2, h2i⟩
      · exact Or.inl (lt_trans h1 h2)
      · exact Or.inl (h2 ▸ h1)
    · rcases hbc with h2 | ⟨h2, h2i⟩
      · exact Or.inl (h1 ▸ h2)
      · exact Or.inr ⟨h1.trans h2, le_trans h1i h2i⟩⟩

instance : IsAntisymm PRow keyLt :=
  ⟨fun a b hab hba => by
    exfalso
    rcases hab with h1 | ⟨h1, h1i⟩
    · rcases hba with h2 | ⟨h2, h2i⟩
      · exact lt_asymm h1 h2
      · exact absurd (h2 ▸ h1) (lt_irrefl _)
    · rcases hba with h2 | ⟨h2, h2i⟩
      · exact absurd (h1 ▸ h2) (lt_irrefl _)
      · exact absurd (Nat.lt_trans h1i h2i) (lt_irrefl _)⟩

instance : IsTotal (String × FileContent) nameLE := ⟨fun a b => le_total a.1 b.1⟩

instance : IsTrans (String × FileContent) nameLE := ⟨fun a b c => le_trans⟩

theorem keyLt_of_keyLE_ne {a b : PRow}
    (hle : keyLE a b)
    (hne : (a.source_file, a.original_index) ≠ (b.source_file, b.original_index)) :
    keyLt a b := by
  rcases hle with h | ⟨h, hi⟩
  · exact Or.inl h
  · refine Or.inr ⟨h, ?_⟩
    rcases Nat.lt_or_ge a.original_index b.original_index with h2 | h2
    · exact h2
    · exact absurd (Prod.ext h (le_antisymm hi h2)) hne

theorem keyLt_key_ne {a b : PRow} (h : keyLt a b) :
    (a.source_file, a.original_index) ≠ (b.source_file, b.original_index) := by
  intro hcon
  have h1 : a.source_file = b.source_file := congrArg Prod.fst hcon
  have h2 : a.original_index = b.original_index := congrArg Prod.snd hcon
  rcases h with h | ⟨_, hlt⟩
  · exact absurd (h1 ▸ h) (lt_irrefl _)
  · exact absurd (h2 ▸ hlt) (lt_irrefl _)

theorem perm_flatten {α : Type} {L1 L2 : List (List α)} (h : List.Perm L1 L2) :
    List.Perm L1.flatten L2.flatten := by
  induction h with
  | nil => exact List.Perm.refl _
  | cons x _ ih =>
    simp only [List.flatten_cons]
    exact ih.append_left x
  | swap x y l =>
    simp only [List.flatten_cons]
    rw [← List.append_assoc, ← List.append_assoc]
    exact List.Perm.append_right l.flatten List.perm_append_comm
  | trans _ _ ih1 ih2 => exact ih1.trans ih2

theorem pairwise_flatten_of {α : Type} {R : α → α → Prop} :
    ∀ L : List (List α), (∀ l ∈ L, l.Pairwise R) →
      L.Pairwise (fun l1 l2 => ∀ a ∈ l1, ∀ b ∈ l2, R a b) →
      L.flatten.Pairwise R := by
  intro L
  induction L with
  | nil => intro _ _; exact List.Pairwise.nil
  | cons l rest ih =>
    intro h1 h2
    rw [List.flatten_cons]
    rw [List.pairwise_append]
    refine ⟨h1 l (by simp), ih (fun x hx => h1 x (by simp [hx]))
      (List.Pairwise.sublist (by simp) h2), ?_⟩
    intro a ha b hb
    obtain ⟨l2, hl2, hbl2⟩ := List.mem_flatten.mp hb
    exact (List.pairwise_cons.mp h2).1 l2 hl2 a ha b hbl2

theorem strListOf_inv :
    ∀ {gl : List Json} {gs : List Str}, strListOf gl = some gs →
      gl = gs.map Json.str := by
  intro gl
  induction gl with
  | nil =>
    intro gs h
    have : gs = [] := by
      have h2 : some ([] : List Str) = some gs := h
      exact (Option.some.inj h2).symm
    rw [this]
    rfl
  | cons j rest ih =>
    intro gs h
    rw [strListOf] at h
    cases hj : asStr j with
    | none => rw [hj] at h; exact Option.noConfusion h
    | some s =>
      cases hrest : strListOf rest with
      | none => rw [hj, hrest] at h; exact Option.noConfusion h
      | some ss =>
        rw [hj, hrest] at h
        have hgs : gs = s :: ss := (Option.some.inj h).symm
        have hjs : j = .str s := by
          cases j <;> simp [asStr] at hj
          rw [hj]
        rw [hgs, hjs, List.map_cons, ih hrest]

theorem specSplit_pyJoin (gs : List Str) (h1 : ∀ g ∈ gs, hasSep g = false)
    (h2 : gs ≠ [[]]) : specSplit (pyJoin gs) = gs := by
  cases gs with
  | nil => rfl
  | cons g rest =>
    have hne : pyJoin (g :: rest) ≠ [] := by
      cases rest with
      | nil =>
        show pyJoin [g] ≠ []
        rw [pyJoin]
        intro hcon
        rw [hcon] at h2
        exact h2 rfl
      | cons g2 rest2 =>
        rw [show pyJoin (g :: g2 :: rest2)
            = g ++ ';' :: ' ' :: pyJoin (g2 :: rest2) from rfl]
        simp
    rw [specSplit, if_neg hne]
    exact pySplit_pyJoin (g :: rest) (List.cons_ne_nil g rest) h1

theorem entryOK_render (e : Json) (h : entryOKB e = true) :
    ∃ pe, decodeEntrySpec e = some pe ∧
      ∀ (name : String) (i : Nat), renderPRow (mkPRow name i pe) = normalizeEntry e := by
  unfold entryOKB at h
  split at h
  case h_2 => exact absurd h (by simp)
  case h_1 pe heq =>
    rw [Bool.and_eq_true] at h
    obtain ⟨hall, hne⟩ := h
    have hno : ∀ g ∈ pe.glosses, hasSep g = false := by
      intro g hg
      have := List.all_eq_true.mp hall g hg
      simpa using this
    have hne2 : pe.glosses ≠ [[]] := by
      intro hcon
      rw [hcon] at hne
      simp at hne
    refine ⟨pe, heq, ?_⟩
    intro name i
    unfold decodeEntrySpec at heq
    split at heq
    case h_2 => exact Option.noConfusion heq
    case h_1 w r k x p gl =>
      cases hgl : strListOf gl with
      | none => rw [hgl] at heq; exact Option.noConfusion heq
      | some gs =>
        rw [hgl] at heq
        have hpe : pe = ⟨w, r, k, p, gs⟩ := (Option.some.inj heq).symm
        subst hpe
        have hglgs : gl = gs.map Json.str := strListOf_inv hgl
        show Json.arr [.str w, .str r, .str k, .str [], .num p,
          .arr ((specSplit (pyJoin gs)).map Json.str)] = _
        rw [specSplit_pyJoin gs hno hne2, ← hglgs]
        rfl

theorem withIdx_length {α : Type} : ∀ (l : List α) (i : Nat),
    (withIdx i l).length = l.length := by
  intro l
  induction l with
  | nil => intro i; rfl
  | cons x xs ih => intro i; simp [withIdx, ih]

theorem withIdx_fst_ge {α : Type} : ∀ (l : List α) (i : Nat),
    ∀ q ∈ withIdx i l, i ≤ q.1 := by
  intro l
  induction l with
  | nil => intro i q hq; simp [withIdx] at hq
  | cons x xs ih =>
    intro i q hq
    rw [withIdx] at hq
    rcases List.mem_cons.mp hq with h | h
    · rw [h]
    · exact le_trans (Nat.le_succ i) (ih (i + 1) q h)

theorem withIdx_pairwise {α : Type} : ∀ (l : List α) (i : Nat),
    (withIdx i l).Pairwise (fun a b => a.1 < b.1) := by
  intro l
  induction l with
  | nil => intro i; exact List.Pairwise.nil
  | cons x xs ih =>
    intro i
    rw [withIdx, List.pairwise_cons]
    refine ⟨?_, ih (i + 1)⟩
    intro q hq
    exact Nat.lt_of_lt_of_le (Nat.lt_succ_self i) (withIdx_fst_ge xs (i + 1) q hq)

theorem shard_render :
    ∀ es : List Json, (∀ e ∈ es, entryOKB e = true) →
      ∃ ps, decodeShardSpec es = some ps ∧ ps.length = es.length ∧
        ∀ (name : String) (i : Nat),
          ((withIdx i ps).map (fun ip => mkPRow name ip.1 ip.2)).map renderPRow
            = es.map normalizeEntry := by
  intro es
  induction es with
  | nil => intro _; exact ⟨[], rfl, rfl, fun _ _ => rfl⟩
  | cons e rest ih =>
    intro h
    obtain ⟨pe, hpe, hrend⟩ := entryOK_render e (h e (by simp))
    obtain ⟨ps, hps, hlen, hrend2⟩ := ih (fun x hx => h x (by simp [hx]))
    refine ⟨pe :: ps, ?_, by simp [hlen], ?_⟩
    · rw [decodeShardSpec, hpe, hps]
    · intro name i
      rw [withIdx, List.map_cons, List.map_cons, List.map_cons]
      rw [hrend name i, hrend2 name (i + 1)]

/-- Provenance key of a row. -/
def rowKey (r : PRow) : String × Nat := (r.source_file, r.original_index)

theorem provShardRows_source (m : String × FileContent) :
    ∀ r ∈ provShardRows m, r.source_file = m.1 := by
  obtain ⟨name, c⟩ := m
  intro r hr
  cases c with
  | raw s => simp [provShardRows] at hr
  | json j =>
    cases j with
    | arr es =>
      cases hps : decodeShardSpec es with
      | none => simp [provShardRows, hps] at hr
      | some ps =>
        simp only [provShardRows, hps] at hr
        obtain ⟨ip, _, hip⟩ := List.mem_map.mp hr
        rw [← hip]
        rfl
    | null => simp [provShardRows] at hr
    | bool b => simp [provShardRows] at hr
    | num n => simp [provShardRows] at hr
    | str s => simp [provShardRows] at hr
    | obj fs => simp [provShardRows] at hr

theorem provShardRows_pairwise (m : String × FileContent) :
    (provShardRows m).Pairwise keyLt := by
  obtain ⟨name, c⟩ := m
  cases c with
  | raw s => exact List.Pairwise.nil
  | json j =>
    cases j with
    | arr es =>
      cases hps : decodeShardSpec es with
      | none => simp only [provShardRows, hps]; exact List.Pairwise.nil
      | some ps =>
        simp only [provShardRows, hps]
        rw [List.pairwise_map]
        refine (withIdx_pairwise ps 0).imp ?_
        intro a b hab
        exact Or.inr ⟨rfl, hab⟩
    | null => exact List.Pairwise.nil
    | bool b => exact List.Pairwise.nil
    | num n => exact List.Pairwise.nil
    | str s => exact List.Pairwise.nil
    | obj fs => exact List.Pairwise.nil

theorem provShardRows_props (name : String) (c : FileContent)
    (h : shardOKB c = true) :
    FileContent.json (.arr ((provShardRows (name, c)).map renderPRow))
      = normalizeContent c
    ∧ provShardRows (name, c) ≠ [] := by
  cases c with
  | raw s => exact absurd h (by simp [shardOKB])
  | json j =>
    cases j with
    | arr es =>
      rw [shardOKB, Bool.and_eq_true] at h
      obtain ⟨hne, hall⟩ := h
      have hesne : es ≠ [] := by
        intro hcon
        rw [hcon] at hne
        simp at hne
      obtain ⟨ps, hps, hlen, hrend⟩ := shard_render es
        (fun e he => List.all_eq_true.mp hall e he)
      have hrows : provShardRows (name, .json (.arr es))
          = (withIdx 0 ps).map (fun ip => mkPRow name ip.1 ip.2) := by
        simp only [provShardRows, hps]
      constructor
      · rw [hrows, hrend name 0]
        rfl
      · rw [hrows]
        intro hcon
        have hl := congrArg List.length hcon
        rw [List.length_map, withIdx_length, hlen] at hl
        exact hesne (List.length_eq_zero.mp hl)
    | null => exact absurd h (by simp [shardOKB])
    | bool b => exact absurd h (by simp [shardOKB])
    | num n => exact absurd h (by simp [shardOKB])
    | str s => exact absurd h (by simp [shardOKB])
    | obj fs => exact absurd h (by simp [shardOKB])

theorem provMemberRows_of_OK (name : String) (c : FileContent)
    (htb : isTermBank name = true) (hok : shardOKB c = true) :
    provMemberRows (name, c) = some (provShardRows (name, c)) := by
  cases c with
  | raw s => exact absurd hok (by simp [shardOKB])
  | json j =>
    cases j with
    | arr es =>
      rw [shardOKB, Bool.and_eq_true] at hok
      obtain ⟨ps, hps, hlen, hrend⟩ := shard_render es
        (fun e he => List.all_eq_true.mp hok.2 e he)
      rw [provMemberRows, if_pos htb]
      simp only [provShardRows, hps]
    | null => exact absurd hok (by simp [shardOKB])
    | bool b => exact absurd hok (by simp [shardOKB])
    | num n => exact absurd hok (by simp [shardOKB])
    | str s => exact absurd hok (by simp [shardOKB])
    | obj fs => exact absurd hok (by simp [shardOKB])

theorem importProv_eq :
    ∀ ms : List (String × FileContent),
      (∀ m ∈ ms, isTermBank m.1 = true → shardOKB m.2 = true) →
      importProv ms =
        some (((ms.filter (fun m => isTermBank m.1)).map provShardRows).flatten) := by
  intro ms
  induction ms with
  | nil => intro _; rfl
  | cons m rest ih =>
    intro h
    rw [List.filter_cons]
    have hih := ih (fun x hx => h x (by simp [hx]))
    by_cases htb : isTermBank m.1 = true
    · have hok : shardOKB m.2 = true := h m (by simp) htb
      have hmem : provMemberRows m = some (provShardRows m) := by
        obtain ⟨name, c⟩ := m
        exact provMemberRows_of_OK name c htb hok
      rw [importProv, hmem, hih]
      simp only [htb, if_true, List.map_cons, List.flatten_cons]
    · have hmem : provMemberRows m = some [] := by
        rw [provMemberRows, if_neg htb]
      have htb2 : isTermBank m.1 = false := by
        cases hx : isTermBank m.1
        · rfl
        · exact absurd hx htb
      rw [importProv, hmem, hih]
      simp only [htb2, Bool.false_eq_true, if_false, List.nil_append]

theorem target_pairwise (ms : List (String × FileContent))
    (hsorted : ms.Pairwise (fun m1 m2 => m1.1 < m2.1)) :
    ((ms.map provShardRows).flatten).Pairwise keyLt := by
  apply pairwise_flatten_of
  · intro l hl
    obtain ⟨m, _, hm⟩ := List.mem_map.mp hl
    rw [← hm]
    exact provShardRows_pairwise m
  · rw [List.pairwise_map]
    refine hsorted.imp ?_
    intro m1 m2 hlt a ha b hb
    exact Or.inl (by
      rw [provShardRows_source m1 a ha, provShardRows_source m2 b hb]
      exact hlt)

theorem sortMembers_strict (ms : List (String × FileContent))
    (hnodup : (ms.map Prod.fst).Nodup) :
    (sortMembers ms).Pairwise (fun m1 m2 => m1.1 < m2.1) := by
  have hs : (sortMembers ms).Pairwise nameLE := List.sorted_insertionSort nameLE ms
  have hperm : List.Perm (sortMembers ms) ms := List.perm_insertionSort nameLE ms
  have hnodup2 : ((sortMembers ms).map Prod.fst).Nodup :=
    ((hperm.map Prod.fst).nodup_iff).mpr hnodup
  have hne : (sortMembers ms).Pairwise (fun m1 m2 => m1.1 ≠ m2.1) :=
    List.pairwise_map.mp hnodup2
  exact (hs.and hne).imp (fun h => lt_of_le_of_ne h.1 h.2)

theorem sortRows_strict (rows : List PRow) (hnodup : (rows.map rowKey).Nodup) :
    (sortRows rows).Pairwise keyLt := by
  have hs : (sortRows rows).Pairwise keyLE := List.sorted_insertionSort keyLE rows
  have hperm : List.Perm (sortRows rows) rows := List.perm_insertionSort keyLE rows
  have hnodup2 : ((sortRows rows).map rowKey).Nodup :=
    ((hperm.map rowKey).nodup_iff).mpr hnodup
  have hne : (sortRows rows).Pairwise (fun a b => rowKey a ≠ rowKey b) :=
    List.pairwise_map.mp hnodup2
  exact (hs.and hne).imp (fun h => keyLt_of_keyLE_ne h.1 h.2)

theorem keys_nodup_of_pairwise (l : List PRow) (h : l.Pairwise keyLt) :
    (l.map rowKey).Nodup :=
  List.pairwise_map.mpr (h.imp (fun hab => keyLt_key_ne hab))

theorem groupRuns_prepend (n : String) :
    ∀ (rs X : List PRow), rs ≠ [] → (∀ r ∈ rs, r.source_file = n) →
      (∀ g ∈ (groupRuns X).head?, g.1 ≠ n) →
      groupRuns (rs ++ X) = (n, rs) :: groupRuns X := by
  intro rs
  induction rs with
  | nil => intro X h; exact absurd rfl h
  | cons r rs' ih =>
    intro X _ hnames hhead
    have hr : r.source_file = n := hnames r (by simp)
    cases rs' with
    | nil =>
      show groupRuns (r :: X) = (n, [r]) :: groupRuns X
      rw [groupRuns]
      cases hgx : groupRuns X with
      | nil =>
        show [(r.source_file, [r])] = [(n, [r])]
        rw [hr]
      | cons g gs =>
        obtain ⟨gn, gg⟩ := g
        have hgn : gn ≠ n := hhead (gn, gg) (by rw [hgx]; rfl)
        have hgn2 : gn ≠ r.source_file := by rw [hr]; exact hgn
        show (if gn = r.source_file then (r.source_file, r :: gg) :: gs
          else (r.source_file, [r]) :: (gn, gg) :: gs) = (n, [r]) :: (gn, gg) :: gs
        rw [if_neg hgn2, hr]
    | cons r2 rs'' =>
      have hsub := ih X (List.cons_ne_nil r2 rs'')
        (fun x hx => hnames x (by simp [hx])) hhead
      show groupRuns (r :: (r2 :: rs'' ++ X)) = (n, r :: r2 :: rs'') :: groupRuns X
      rw [groupRuns]
      rw [show r2 :: rs'' ++ X = (r2 :: rs'') ++ X from rfl] at hsub ⊢
      rw [hsub]
      show (if n = r.source_file then (r.source_file, r :: r2 :: rs'') :: groupRuns X
        else (r.source_file, [r]) :: (n, r2 :: rs'') :: groupRuns X)
        = (n, r :: r2 :: rs'') :: groupRuns X
      rw [if_pos hr.symm, hr]

theorem groupRuns_flatten :
    ∀ gl : List (String × List PRow),
      (∀ g ∈ gl, g.2 ≠ [] ∧ ∀ r ∈ g.2, r.source_file = g.1) →
      gl.Pairwise (fun g1 g2 => g1.1 ≠ g2.1) →
      groupRuns ((gl.map Prod.snd).flatten) = gl := by
  intro gl
  induction gl with
  | nil => intro _ _; rfl
  | cons g gs ih =>
    intro h hp
    obtain ⟨n, rs⟩ := g
    rw [List.map_cons, List.flatten_cons]
    have hgs := ih (fun x hx => h x (by simp [hx])) (List.pairwise_cons.mp hp).2
    rw [groupRuns_prepend n rs ((gs.map Prod.snd).flatten)
      (h (n, rs) (by simp)).1 (h (n, rs) (by simp)).2 ?_, hgs]
    intro g2 hg2
    rw [hgs] at hg2
    have hmem := List.mem_of_mem_head? hg2
    exact fun hcon => (List.pairwise_cons.mp hp).1 g2 hmem (hcon ▸ rfl)

/-- C1 amended: for an archive with distinct member names whose term-bank
members are nonempty well-typed shards, no gloss containing the delimiter
and no entry whose translation list is the single empty gloss, exporting
the table produced by the provenance-preserving import, with the archive
itself as reference, reproduces the archive member for member: the same
multiset of members, each entry shard carrying the same entries in the
same order with the same word, reading, kind, priority and
translation-list values, only the discarded fourth slot replaced by the
empty placeholder, and every non-shard member (the metadata file
included) copied verbatim. -/
theorem provenance_roundtrip (A : List (String × FileContent))
    (hnodup : (A.map Prod.fst).Nodup)
    (hwf : ∀ m ∈ A, isTermBank m.1 = true → shardOKB m.2 = true) :
    ∃ rows, importProv A = some rows ∧
      List.Perm (exportProv (sortRows rows) A) (A.map normalizeMember) := by
  have himp := importProv_eq A hwf
  refine ⟨((A.filter (fun m => isTermBank m.1)).map provShardRows).flatten, himp, ?_⟩
  have hTBmem : ∀ m ∈ sortMembers (A.filter (fun m => isTermBank m.1)),
      isTermBank m.1 = true ∧ shardOKB m.2 = true := by
    intro m hm
    have hmem : m ∈ A.filter (fun m => isTermBank m.1) :=
      (List.perm_insertionSort nameLE _).mem_iff.mp hm
    have h1 := List.of_mem_filter hmem
    have h2 := List.mem_of_mem_filter hmem
    exact ⟨h1, hwf m h2 h1⟩
  have hTBn : ((A.filter (fun m => isTermBank m.1)).map Prod.fst).Nodup :=
    List.Nodup.sublist ((List.filter_sublist A).map Prod.fst) hnodup
  have hsortedM := sortMembers_strict (A.filter (fun m => isTermBank m.1)) hTBn
  have hTpair := target_pairwise
    (sortMembers (A.filter (fun m => isTermBank m.1))) hsortedM
  have hperm2 : List.Perm
      (((A.filter (fun m => isTermBank m.1)).map provShardRows).flatten)
      (((sortMembers (A.filter (fun m => isTermBank m.1))).map provShardRows).flatten) :=
    (perm_flatten ((List.perm_insertionSort nameLE _).map provShardRows)).symm
  have hkeys :
      ((((A.filter (fun m => isTermBank m.1)).map provShardRows).flatten).map rowKey).Nodup :=
    ((hperm2.map rowKey).nodup_iff).mpr (keys_nodup_of_pairwise _ hTpair)
  have hperm1 := List.perm_insertionSort keyLE
    (((A.filter (fun m => isTermBank m.1)).map provShardRows).flatten)
  have hSsorted := sortRows_strict _ hkeys
  have heq : sortRows (((A.filter (fun m => isTermBank m.1)).map provShardRows).flatten)
      = ((sortMembers (A.filter (fun m => isTermBank m.1))).map provShardRows).flatten :=
    List.eq_of_perm_of_sorted (hperm1.trans hperm2) hSsorted hTpair
  have hgl : groupRuns
      (((sortMembers (A.filter (fun m => isTermBank m.1))).map provShardRows).flatten)
      = (sortMembers (A.filter (fun m => isTermBank m.1))).map
          (fun m => (m.1, provShardRows m)) := by
    have hsnd : ((sortMembers (A.filter (fun m => isTermBank m.1))).map
        (fun m => (m.1, provShardRows m))).map Prod.snd
        = (sortMembers (A.filter (fun m => isTermBank m.1))).map provShardRows := by
      rw [List.map_map]
      rfl
    rw [← hsnd]
    apply groupRuns_flatten
    · intro g hg
      obtain ⟨m, hm, hgm⟩ := List.mem_map.mp hg
      obtain ⟨htb, hok⟩ := hTBmem m hm
      rw [← hgm]
      obtain ⟨name, c⟩ := m
      refine ⟨(provShardRows_props name c hok).2, ?_⟩
      intro r hr
      exact provShardRows_source (name, c) r hr
    · exact List.pairwise_map.mpr (hsortedM.imp (fun h => ne_of_lt h))
  have hrender : ((sortMembers (A.filter (fun m => isTermBank m.1))).map
      (fun m => (m.1, provShardRows m))).map
        (fun g => (g.1, FileContent.json (.arr (g.2.map renderPRow))))
      = (sortMembers (A.filter (fun m => isTermBank m.1))).map normalizeMember := by
    rw [List.map_map]
    apply List.map_congr_left
    intro m hm
    obtain ⟨htb, hok⟩ := hTBmem m hm
    obtain ⟨name, c⟩ := m
    show (name, FileContent.json (.arr ((provShardRows (name, c)).map renderPRow)))
      = normalizeMember (name, c)
    rw [(provShardRows_props name c hok).1]
    rw [normalizeMember, if_pos htb]
  rw [exportProv, heq, hgl, hrender]
  have hid : A.filter (fun m => !isTermBank m.1)
      = (A.filter (fun m => !isTermBank m.1)).map normalizeMember := by
    have hmm : ∀ m ∈ A.filter (fun m => !isTermBank m.1), normalizeMember m = m := by
      intro m hm
      have h1 := List.of_mem_filter hm
      have h2 : isTermBank m.1 = false := by
        cases hx : isTermBank m.1
        · rfl
        · rw [hx] at h1; exact absurd h1 (by simp)
      rw [normalizeMember, if_neg (by rw [h2]; exact Bool.false_ne_true)]
    rw [List.map_congr_left hmm, List.map_id']
  rw [hid, ← List.map_append]
  refine List.Perm.map normalizeMember ?_
  have hpermTB : List.Perm (sortMembers (A.filter (fun m => isTermBank m.1)))
      (A.filter (fun m => isTermBank m.1)) := List.perm_insertionSort nameLE _
  refine ((List.Perm.refl (A.filter (fun m => !isTermBank m.1))).append hpermTB).trans ?_
  have hflt := List.filter_append_perm (fun m => !isTermBank m.1) A
  have hfix : A.filter (fun m => !!isTermBank m.1)
      = A.filter (fun m => isTermBank m.1) :=
    List.filter_congr (fun a _ => by simp)
  rw [hfix] at hflt
  exact hflt

theorem provenance_roundtrip_witness :
    ∃ rows,
      importProv
        [("index.json", .json (.obj [])),
         ("tag_bank_1.json", .json (.arr [])),
         ("term_bank_1.json", .json (.arr [.arr [.str ['d'], .str ['r'], .str ['k'],
            .str ['x'], .num 5, .arr [.str ['g'], .str ['h']]]]))] = some rows
      ∧ List.Perm
          (exportProv (sortRows rows)
            [("index.json", .json (.obj [])),
             ("tag_bank_1.json", .json (.arr [])),
             ("term_bank_1.json", .json (.arr [.arr [.str ['d'], .str ['r'], .str ['k'],
                .str ['x'], .num 5, .arr [.str ['g'], .str ['h']]]]))])
          ([("index.json", .json (.obj [])),
            ("tag_bank_1.json", .json (.arr [])),
            ("term_bank_1.json", .json (.arr [.arr [.str ['d'], .str ['r'], .str ['k'],
               .str ['x'], .num 5, .arr [.str ['g'], .str ['h']]]]))].map normalizeMember) :=
  provenance_roundtrip
    [("index.json", .json (.obj [])),
     ("tag_bank_1.json", .json (.arr [])),
     ("term_bank_1.json", .json (.arr [.arr [.str ['d'], .str ['r'], .str ['k'],
        .str ['x'], .num 5, .arr [.str ['g'], .str ['h']]]]))]
    (by decide) (by decide)

theorem provenance_roundtrip_counterexample :
    ([("index.json", FileContent.json (.obj [])),
      ("term_bank_1.json", FileContent.json (.arr [.arr [.str ['w'], .str ['r'],
         .str ['k'], .str ['x'], .num 5, .arr [.str []]]]))].map Prod.fst).Nodup
    ∧ decodeEntrySpec (.arr [.str ['w'], .str ['r'], .str ['k'], .str ['x'],
        .num 5, .arr [.str []]])
      = some ⟨['w'], ['r'], ['k'], 5, [[]]⟩
    ∧ (∀ g ∈ ([[]] : List Str), hasSep g = false)
    ∧ importProv
        [("index.json", .json (.obj [])),
         ("term_bank_1.json", .json (.arr [.arr [.str ['w'], .str ['r'], .str ['k'],
            .str ['x'], .num 5, .arr [.str []]]]))]
      = some [⟨['w'], ['r'], ['k'], [], 5, "term_bank_1.json", 0⟩]
    ∧ ¬ List.Perm
        (exportProv (sortRows [⟨['w'], ['r'], ['k'], [], 5, "term_bank_1.json", 0⟩])
          [("index.json", .json (.obj [])),
           ("term_bank_1.json", .json (.arr [.arr [.str ['w'], .str ['r'], .str ['k'],
              .str ['x'], .num 5, .arr [.str []]]]))])
        ([("index.json", .json (.obj [])),
          ("term_bank_1.json", .json (.arr [.arr [.str ['w'], .str ['r'], .str ['k'],
             .str ['x'], .num 5, .arr [.str []]]]))].map normalizeMember) := by
  decide
